import Mathlib

/-!
Verification of the calgebra interval-algebra engine.

This file is a shallow embedding of `calgebra/interval.py`, `calgebra/core.py`,
`calgebra/metrics.py`, `calgebra/properties.py` and the daily/weekly paths of
`calgebra/recurrence.py`.  Each combinator's `fetch` is modelled as a pure
function on the lists of intervals its source timelines produce for the given
bounds (the combinators in `core.py` never inspect the bounds themselves; they
only forward them to their sources).  Machine integers are modelled as `Int`
(Python integers are unbounded).  Python's `//` and `%` on a positive divisor
are floor division and floor modulus, which coincide with `Int.ediv` and
`Int.emod` for positive divisors; those are used throughout.
-/

namespace Calgebra

/-- Embeds `calgebra.interval.Interval`: an immutable pair of integer seconds.
The Python field `end` is a Lean keyword, so it is named `stop` here. -/
structure Interval where
  start : Int
  stop : Int
deriving DecidableEq, Repr

/-- Embeds Python `ValueError` as raised by this code base; the message tells
the failure classes apart (the spec's taxonomy calls the missing-finite-bounds
case a BoundsError). -/
inductive ValueErr where
  | valueError (msg : String)
deriving DecidableEq, Repr

/-- Message of the `ValueError` raised by `Interval.__post_init__`. -/
def intervalOrderMsg : String := "Interval start must be <= end"

/-- Message of the `ValueError` raised by `Complement.fetch` on a `None` bound
(the spec's BoundsError). -/
def complementBoundsMsg : String := "Complement requires finite bounds"

/-- Message of the `ValueError` raised by `RecurringPattern.fetch` when
`start` is `None` (the spec's BoundsError). -/
def recurringBoundsMsg : String := "Recurring timeline requires finite start"

/-- Embeds `Interval.__post_init__`: constructing an `Interval` with
`start > end` raises `ValueError`; otherwise the interval is produced. -/
def mkInterval (start stop : Int) : Except ValueErr Interval :=
  if start > stop then .error (.valueError intervalOrderMsg)
  else .ok ⟨start, stop⟩

/-- An interval satisfying the `__post_init__` invariant. -/
def Interval.valid (i : Interval) : Prop := i.start ≤ i.stop

instance (i : Interval) : Decidable i.valid := by
  unfold Interval.valid; infer_instance

/-- The `(start, end)` lexicographic key order used by `Union.fetch` and
`Difference.fetch` (`key=lambda e: (e.start, e.end)`). -/
def ile (a b : Interval) : Prop :=
  a.start < b.start ∨ (a.start = b.start ∧ a.stop ≤ b.stop)

instance (a b : Interval) : Decidable (ile a b) := by
  unfold ile; infer_instance

theorem ile_refl (a : Interval) : ile a a := Or.inr ⟨rfl, le_refl _⟩

theorem ile_trans {a b c : Interval} (h1 : ile a b) (h2 : ile b c) : ile a c := by
  rcases h1 with h1 | ⟨h1, h1'⟩ <;> rcases h2 with h2 | ⟨h2, h2'⟩
  · exact Or.inl (lt_trans h1 h2)
  · exact Or.inl (h2 ▸ h1)
  · exact Or.inl (h1 ▸ h2)
  · exact Or.inr ⟨h1.trans h2, h1'.trans h2'⟩

theorem ile_total (a b : Interval) : ile a b ∨ ile b a := by
  rcases lt_trichotomy a.start b.start with h | h | h
  · exact Or.inl (Or.inl h)
  · rcases le_total a.stop b.stop with h' | h'
    · exact Or.inl (Or.inr ⟨h, h'⟩)
    · exact Or.inr (Or.inr ⟨h.symm, h'⟩)
  · exact Or.inr (Or.inl h)

theorem ile_of_not_ile {a b : Interval} (h : ¬ ile a b) : ile b a :=
  (ile_total a b).resolve_left h

/-- A stream ordered non-decreasingly by `(start, end)`, the Timeline output
contract. -/
def SortedLex (l : List Interval) : Prop := List.Pairwise ile l

instance (l : List Interval) : Decidable (SortedLex l) := by
  unfold SortedLex; infer_instance

/-- Strict separation of consecutive intervals: each interval ends strictly
before the next begins (no overlap, under the inclusive endpoint model). -/
def Disjoint2 (l : List Interval) : Prop :=
  List.Pairwise (fun a b => a.stop < b.start) l

instance (l : List Interval) : Decidable (Disjoint2 l) := by
  unfold Disjoint2; infer_instance

/-- A second `t` is covered by a stream when some interval of the stream
contains it (endpoints inclusive, matching `core.py` arithmetic). -/
def covered (t : Int) (l : List Interval) : Prop :=
  ∃ i ∈ l, i.start ≤ t ∧ t ≤ i.stop

instance (t : Int) (l : List Interval) : Decidable (covered t l) := by
  unfold covered; infer_instance

/-! ## Union: `heapq.merge` of the source streams

`Union.fetch` merges the already fetched source streams with
`heapq.merge(*streams, key=lambda e: (e.start, e.end))`, which is the stable
k-way merge: smaller key first, ties resolved in favour of the earlier
stream.  `mergeGo`/`merge2` implement the stable two-way merge structurally
and `unionFetch` folds it over the stream list, which yields the same
sequence (earlier streams win all ties). -/

def mergeGo (x : Interval) (xs : List Interval) (rec : List Interval → List Interval) :
    List Interval → List Interval
  | [] => x :: rec []
  | y :: ys => if ile x y then x :: rec (y :: ys) else y :: mergeGo x xs rec ys

def merge2 : List Interval → List Interval → List Interval
  | [], ys => ys
  | x :: xs, ys => mergeGo x xs (merge2 xs) ys

/-- Embeds `Union.fetch`: the k-way merge of all source streams. -/
def unionFetch (streams : List (List Interval)) : List Interval :=
  streams.foldr merge2 []

/-- Embeds `Filtered.fetch`: keep the source items satisfying the filter
predicate, in order. -/
def filteredFetch (p : Interval → Bool) (l : List Interval) : List Interval :=
  l.filter p

/-! ## Complement: gap inversion (`Complement.fetch`)

`compAux s e cursor events` is the body of `Complement.fetch`'s `generate()`
loop: skip events ending before `start`, break on events starting after
`end`, clip to the window, emit the gap before each clipped event, advance
the cursor past it, and emit the trailing gap when the cursor is still inside
the window. -/

def compAux (s e : Int) : Int → List Interval → List Interval
  | cursor, [] => if cursor ≤ e then [⟨cursor, e⟩] else []
  | cursor, ev :: evs =>
    if ev.stop < s then compAux s e cursor evs
    else if ev.start > e then (if cursor ≤ e then [⟨cursor, e⟩] else [])
    else if min ev.stop e < cursor then compAux s e cursor evs
    else if max cursor (min ev.stop e + 1) > e then
      (if max ev.start s > cursor then [(⟨cursor, max ev.start s - 1⟩ : Interval)] else [])
    else
      (if max ev.start s > cursor then [(⟨cursor, max ev.start s - 1⟩ : Interval)] else []) ++
        compAux s e (max cursor (min ev.stop e + 1)) evs

/-- The interval list produced by `Complement.fetch(start, end)` on a source
stream, for finite bounds. -/
def comp (s e : Int) (l : List Interval) : List Interval := compAux s e s l

/-- Embeds `Complement.fetch` including its bounds check: a `None` bound
raises `ValueError` (the spec's BoundsError) before anything is yielded. -/
def complementFetch (s? e? : Option Int) (l : List Interval) :
    Except ValueErr (List Interval) :=
  match s?, e? with
  | some s, some e => .ok (comp s e l)
  | _, _ => .error (.valueError complementBoundsMsg)

/-- Embeds `flatten`: `flatten(timeline)` is `~(~timeline)`, so its `fetch`
is the complement sweep applied twice with the same bounds. -/
def flattenFetch (s e : Int) (l : List Interval) : List Interval :=
  comp s e (comp s e l)

/-- The output of `Complement.fetch` is canonical: intervals are valid, lie
in the query window, and consecutive outputs are separated by at least one
uncovered second (so they are strictly ordered and non-adjacent). -/
def Canon (s e : Int) (l : List Interval) : Prop :=
  (∀ i ∈ l, s ≤ i.start ∧ i.start ≤ i.stop ∧ i.stop ≤ e) ∧
  List.Pairwise (fun a b => a.stop + 2 ≤ b.start) l

/-! ## Difference: sweep-line subtraction (`Difference.fetch`)

For each source event the loop keeps a cursor inside the event and walks the
merged subtractor stream.  `skipPhase` is the
`while current_subtractor.end < cursor` skip loop (run with `cursor` still at
`event.start`); `overlapFrags`/`overlapRest` are the two components of the
`while current_subtractor.start <= event_end` loop: the fragments yielded for
this event (including the trailing fragment after the loop) and the
subtractor-stream state retained for later events. -/

def skipPhase (cursor : Int) : List Interval → List Interval
  | [] => []
  | c :: rest => if c.stop < cursor then skipPhase cursor rest else c :: rest

def overlapFrags (evEnd : Int) : Int → List Interval → List Interval
  | cursor, [] => if cursor ≤ evEnd then [⟨cursor, evEnd⟩] else []
  | cursor, c :: rest =>
    if c.start ≤ evEnd then
      if max cursor c.start ≤ min evEnd c.stop then
        if min evEnd c.stop + 1 > evEnd then
          (if cursor ≤ max cursor c.start - 1 then
            [(⟨cursor, max cursor c.start - 1⟩ : Interval)] else [])
        else if c.stop ≤ evEnd then
          (if cursor ≤ max cursor c.start - 1 then
            [(⟨cursor, max cursor c.start - 1⟩ : Interval)] else []) ++
            overlapFrags evEnd (min evEnd c.stop + 1) rest
        else
          (if cursor ≤ max cursor c.start - 1 then
            [(⟨cursor, max cursor c.start - 1⟩ : Interval)] else []) ++
            [(⟨min evEnd c.stop + 1, evEnd⟩ : Interval)]
      else
        if c.stop ≤ evEnd then overlapFrags evEnd cursor rest
        else (if cursor ≤ evEnd then [⟨cursor, evEnd⟩] else [])
    else (if cursor ≤ evEnd then [⟨cursor, evEnd⟩] else [])

def overlapRest (evEnd : Int) : Int → List Interval → List Interval
  | _, [] => []
  | cursor, c :: rest =>
    if c.start ≤ evEnd then
      if max cursor c.start ≤ min evEnd c.stop then
        if min evEnd c.stop + 1 > evEnd then c :: rest
        else if c.stop ≤ evEnd then overlapRest evEnd (min evEnd c.stop + 1) rest
        else c :: rest
      else
        if c.stop ≤ evEnd then overlapRest evEnd cursor rest
        else c :: rest
    else c :: rest

/-- One iteration of the `for event in self.source.fetch(...)` loop: the
fragments yielded for `ev` and the remaining subtractor stream. -/
def diffEvent (ev : Interval) (subs : List Interval) : List Interval × List Interval :=
  match skipPhase ev.start subs with
  | [] => ([ev], [])
  | c :: rest =>
    (overlapFrags ev.stop ev.start (c :: rest), overlapRest ev.stop ev.start (c :: rest))

def diffLoop (subs : List Interval) : List Interval → List Interval
  | [] => []
  | ev :: evs => (diffEvent ev subs).1 ++ diffLoop (diffEvent ev subs).2 evs

/-- Embeds `Difference.fetch`: with no subtractor timelines the source stream
passes through; otherwise the subtractor streams are merged (`heapq.merge`,
as in Union) and swept against each source event. -/
def diffFetch (src : List Interval) (subStreams : List (List Interval)) : List Interval :=
  match subStreams with
  | [] => src
  | _ :: _ => diffLoop (unionFetch subStreams) src

/-! ## Intersection: multi-cursor sweep (`Intersection.fetch`)

The state is one `(current, not-yet-pulled rest)` pair per source.
`advanceAll` is the advance loop: every source whose current interval ends at
the cutoff pulls its next interval; pulling from an exhausted source raises
`StopIteration`, which the code answers by returning from the generator
(modelled as `none`).  The loop itself runs on fuel; each continuing
iteration advanced at least one source, so `restSum st + 1` steps always
suffice (`isectLoopFuel_congr` below shows any larger fuel gives the same
output). -/

def advanceAll (cutoff : Int) :
    List (Interval × List Interval) → Option (List (Interval × List Interval) × Bool)
  | [] => some ([], false)
  | (cur, rest) :: tl =>
    if cur.stop = cutoff then
      match rest with
      | [] => none
      | r :: rs =>
        match advanceAll cutoff tl with
        | none => none
        | some (tl', _) => some ((r, rs) :: tl', true)
    else
      match advanceAll cutoff tl with
      | none => none
      | some (tl', adv) => some ((cur, rest) :: tl', adv)

def restSum (st : List (Interval × List Interval)) : Nat :=
  (st.map (fun p => p.2.length)).sum

def maxList : List Int → Int
  | [] => 0
  | [x] => x
  | x :: xs => max x (maxList xs)

def minList : List Int → Int
  | [] => 0
  | [x] => x
  | x :: xs => min x (minList xs)

def isectLoopFuel : Nat → List (Interval × List Interval) → List Interval
  | 0, _ => []
  | _ + 1, [] => []
  | fuel + 1, p :: ps =>
    (if maxList ((p :: ps).map (fun q => q.1.start)) ≤
        minList ((p :: ps).map (fun q => q.1.stop)) then
      [(⟨maxList ((p :: ps).map (fun q => q.1.start)),
         minList ((p :: ps).map (fun q => q.1.stop))⟩ : Interval)]
    else []) ++
      match advanceAll (minList ((p :: ps).map (fun q => q.1.stop))) (p :: ps) with
      | none => []
      | some (st', true) => isectLoopFuel fuel st'
      | some (_, false) => []

/-- `current = [next(iterator) for iterator in iterators]`: `none` when some
source is empty (the StopIteration path that ends the generator at once). -/
def isectInit (streams : List (List Interval)) :
    Option (List (Interval × List Interval)) :=
  match streams with
  | [] => some []
  | l :: ls =>
    match l with
    | [] => none
    | x :: xs =>
      match isectInit ls with
      | none => none
      | some st => some ((x, xs) :: st)

/-- The sequence of overlap windows computed by `Intersection.fetch` (one
entry per overlap actually yielded; the emission policy below replicates each
window once per emitting source). -/
def intersectionWindows (streams : List (List Interval)) : List Interval :=
  match streams with
  | [] => []
  | _ :: _ =>
    match isectInit streams with
    | none => []
    | some st => isectLoopFuel (restSum st + 1) st

/-- Embeds `Intersection.fetch` emission: per overlap window the loop yields
one trimmed copy per emit index (`k = 1` when all sources are masks, `k` =
number of rich sources when mixed, `k` = number of sources when all rich;
bare `Interval` copies are identical). -/
def intersectionFetch (k : Nat) (streams : List (List Interval)) : List Interval :=
  (intersectionWindows streams).flatMap (fun w => List.replicate k w)

/-! ## Recurrence engine (`RecurringPattern`), daily and weekly in UTC

`_get_safe_anchor` works on calendar days: in UTC the day number of a
timestamp is `ediv ts 86400`, the epoch 1970-01-01 is day 0 and the Monday
on/before the epoch (1969-12-29) is day `-3` (timestamp `-259200`).
`dateutil.rrule` with `freq=DAILY/WEEKLY`, an `interval` step, a midnight
`dtstart` and no by-rules yields exactly `dtstart + k * step` (UTC has no DST
shifts), which `_occurrence_to_interval` turns into
`[occ + start_seconds, occ + start_seconds + duration]`. -/

def dailyAnchor (interval lb : Int) : Int :=
  86400 * (lb / 86400 - lb / 86400 % interval)

def weeklyAnchor (interval lb : Int) : Int :=
  -259200 + 604800 * ((lb / 86400 + 3) / 7 - (lb / 86400 + 3) / 7 % interval)

/-- The `for occurrence in rules` loop of `RecurringPattern.fetch`: skip
occurrences ending before `start` (fast-forward), stop at the first
occurrence starting after `end` (the generator is monotone in `k`, so the
surviving indices are `0 .. (e - ss - anchor) / step`). -/
def occStream (anchor step dur ss s e : Int) : List Interval :=
  if (e - ss - anchor) / step < 0 then []
  else
    (List.range (((e - ss - anchor) / step).toNat + 1)).filterMap (fun (k : Nat) =>
      if anchor + step * (k : Int) + ss + dur < s then none
      else some ⟨anchor + step * (k : Int) + ss, anchor + step * (k : Int) + ss + dur⟩)

/-- `RecurringPattern.fetch` for `freq="daily"`, `tz="UTC"`, finite bounds:
lookback is `duration + interval` days, the anchor aligns the lookback start
down to the epoch-based day grid. -/
def dailyFetch (interval dur ss s e : Int) : List Interval :=
  occStream (dailyAnchor interval (s - (dur + interval * 86400)))
    (86400 * interval) dur ss s e

/-- `RecurringPattern.fetch` for `freq="weekly"`, `tz="UTC"`, finite bounds:
lookback is `duration + interval` weeks, the anchor aligns the lookback start
down to the Monday-aligned week grid counted from 1969-12-29. -/
def weeklyFetch (interval dur ss s e : Int) : List Interval :=
  occStream (weeklyAnchor interval (s - (dur + interval * 604800)))
    (604800 * interval) dur ss s e

/-- `RecurringPattern.fetch` bounds check: `start=None` raises `ValueError`
(the spec's BoundsError) and nothing is ever yielded.  (The unbounded-end
mode streams forever and is outside this finite embedding.) -/
def recurringFetchDaily (interval dur ss : Int) (s? : Option Int) (e : Int) :
    Except ValueErr (List Interval) :=
  match s? with
  | none => .error (.valueError recurringBoundsMsg)
  | some s => .ok (dailyFetch interval dur ss s e)

/-! ## Metrics and duration properties -/

/-- Embeds `metrics.total_duration`: sum of inclusive lengths over the
flattened stream, `0` when `start > end`. -/
def totalDuration (l : List Interval) (s e : Int) : Int :=
  if s > e then 0
  else ((flattenFetch s e l).map (fun i => i.stop - i.start + 1)).sum

/-- Embeds `properties.Duration.apply` for finite intervals: inclusive length
divided by the unit scale (`SCALES`: seconds 1, minutes 60, hours 3600,
days 86400). -/
def durationApply (scale : Int) (i : Interval) : ℚ :=
  ((i.stop - i.start + 1 : Int) : ℚ) / (scale : ℚ)

theorem merge2_nil_left (ys : List Interval) : merge2 [] ys = ys := rfl

theorem merge2_nil_right (xs : List Interval) : merge2 xs [] = xs := by
  cases xs with
  | nil => rfl
  | cons x xs => show x :: merge2 xs [] = x :: xs; rw [merge2_nil_right xs]

theorem merge2_cons_cons (x y : Interval) (xs ys : List Interval) :
    merge2 (x :: xs) (y :: ys) =
      if ile x y then x :: merge2 xs (y :: ys) else y :: merge2 (x :: xs) ys := rfl

theorem mem_merge2 :
    ∀ (xs ys : List Interval) (a : Interval),
      a ∈ merge2 xs ys ↔ a ∈ xs ∨ a ∈ ys := by
  intro xs
  induction xs with
  | nil => intro ys a; simp [merge2]
  | cons x xs ih =>
    intro ys
    induction ys with
    | nil => intro a; rw [merge2_nil_right]; simp
    | cons y ys ihy =>
      intro a
      rw [merge2_cons_cons]
      by_cases hxy : ile x y
      · rw [if_pos hxy]
        simp only [List.mem_cons, ih (y :: ys) a]
        tauto
      · rw [if_neg hxy]
        simp only [List.mem_cons, ihy a]
        tauto

theorem merge2_sorted :
    ∀ {xs ys : List Interval}, SortedLex xs → SortedLex ys →
      SortedLex (merge2 xs ys) := by
  intro xs
  induction xs with
  | nil => intro ys _ hy; exact hy
  | cons x xs ih =>
    intro ys hx hy
    induction ys with
    | nil => rw [merge2_nil_right]; exact hx
    | cons y ys ihy =>
      rw [merge2_cons_cons]
      rcases List.pairwise_cons.mp hx with ⟨hxall, hxs⟩
      rcases List.pairwise_cons.mp hy with ⟨hyall, hys⟩
      by_cases hxy : ile x y
      · rw [if_pos hxy]
        refine List.pairwise_cons.mpr ⟨?_, ih hxs (List.pairwise_cons.mpr ⟨hyall, hys⟩)⟩
        intro b hb
        rcases (mem_merge2 _ _ b).mp hb with hb' | hb'
        · exact hxall b hb'
        · rcases List.mem_cons.mp hb' with hb'' | hb''
          · exact hb'' ▸ hxy
          · exact ile_trans hxy (hyall b hb'')
      · rw [if_neg hxy]
        have hyx : ile y x := ile_of_not_ile hxy
        refine List.pairwise_cons.mpr ⟨?_, ihy hys⟩
        intro b hb
        rcases (mem_merge2 _ _ b).mp hb with hb' | hb'
        · rcases List.mem_cons.mp hb' with hb'' | hb''
          · exact hb'' ▸ hyx
          · exact ile_trans hyx (hxall b hb'')
        · exact hyall b hb'

theorem unionFetch_sorted {streams : List (List Interval)}
    (h : ∀ l ∈ streams, SortedLex l) : SortedLex (unionFetch streams) := by
  induction streams with
  | nil => exact List.Pairwise.nil
  | cons l ls ih =>
    exact merge2_sorted (h l (List.mem_cons_self _ _))
      (ih fun l' hl' => h l' (List.mem_cons_of_mem _ hl'))

theorem mem_unionFetch {a : Interval} {streams : List (List Interval)} :
    a ∈ unionFetch streams ↔ ∃ l ∈ streams, a ∈ l := by
  induction streams with
  | nil => simp [unionFetch]
  | cons l ls ih =>
    show a ∈ merge2 l (unionFetch ls) ↔ _
    rw [mem_merge2 _ _ a, ih]
    constructor
    · intro h
      rcases h with h' | ⟨l', hl', ha⟩
      · exact ⟨l, List.mem_cons_self _ _, h'⟩
      · exact ⟨l', List.mem_cons_of_mem _ hl', ha⟩
    · rintro ⟨l', hl', ha⟩
      rcases List.mem_cons.mp hl' with h' | h'
      · exact Or.inl (h' ▸ ha)
      · exact Or.inr ⟨l', h', ha⟩

theorem filteredFetch_sorted {p : Interval → Bool} {l : List Interval}
    (h : SortedLex l) : SortedLex (filteredFetch p l) :=
  List.Pairwise.filter p h

theorem mem_filteredFetch_subset {p : Interval → Bool} {l : List Interval}
    {a : Interval} (h : a ∈ filteredFetch p l) : a ∈ l :=
  List.mem_of_mem_filter h

theorem compAux_valid (s e : Int) :
    ∀ (l : List Interval) (c : Int), ∀ g ∈ compAux s e c l, g.start ≤ g.stop := by
  intro l
  induction l with
  | nil =>
    intro c g hg
    simp only [compAux] at hg
    split at hg
    · rcases List.mem_singleton.mp hg with rfl
      simpa using ‹c ≤ e›
    · cases hg
  | cons ev evs ih =>
    intro c g hg
    simp only [compAux] at hg
    split at hg
    · exact ih c g hg
    · split at hg
      · split at hg
        · rcases List.mem_singleton.mp hg with rfl
          simpa using ‹c ≤ e›
        · cases hg
      · split at hg
        · exact ih c g hg
        · have hseg : ¬ min ev.stop e < c := ‹¬ min ev.stop e < c›
          split at hg
          · rename_i hgap
            split at hg
            · rcases List.mem_singleton.mp hg with rfl
              simp only
              omega
            · cases hg
          · rename_i hgap
            rcases List.mem_append.mp hg with hg' | hg'
            · split at hg'
              · rcases List.mem_singleton.mp hg' with rfl
                simp only
                omega
              · cases hg'
            · exact ih _ g hg'

/-! Branch equations of `compAux`, mirroring the control flow of
`Complement.fetch`'s loop body. -/

theorem compAux_nil (s e c : Int) :
    compAux s e c [] = if c ≤ e then [(⟨c, e⟩ : Interval)] else [] := rfl

theorem compAux_cons_skip {s e c : Int} {ev : Interval} (evs : List Interval)
    (h1 : ev.stop < s) : compAux s e c (ev :: evs) = compAux s e c evs := by
  simp only [compAux, if_pos h1]

theorem compAux_cons_break {s e c : Int} {ev : Interval} (evs : List Interval)
    (h1 : ¬ ev.stop < s) (h2 : ev.start > e) :
    compAux s e c (ev :: evs) = if c ≤ e then [(⟨c, e⟩ : Interval)] else [] := by
  simp only [compAux, if_neg h1, if_pos h2]

theorem compAux_cons_stale {s e c : Int} {ev : Interval} (evs : List Interval)
    (h1 : ¬ ev.stop < s) (h2 : ¬ ev.start > e) (h3 : min ev.stop e < c) :
    compAux s e c (ev :: evs) = compAux s e c evs := by
  simp only [compAux, if_neg h1, if_neg h2, if_pos h3]

theorem compAux_cons_last {s e c : Int} {ev : Interval} (evs : List Interval)
    (h1 : ¬ ev.stop < s) (h2 : ¬ ev.start > e) (h3 : ¬ min ev.stop e < c)
    (h4 : max c (min ev.stop e + 1) > e) :
    compAux s e c (ev :: evs) =
      (if max ev.start s > c then [(⟨c, max ev.start s - 1⟩ : Interval)] else []) := by
  simp only [compAux, if_neg h1, if_neg h2, if_neg h3, if_pos h4]

theorem compAux_cons_main {s e c : Int} {ev : Interval} (evs : List Interval)
    (h1 : ¬ ev.stop < s) (h2 : ¬ ev.start > e) (h3 : ¬ min ev.stop e < c)
    (h4 : ¬ max c (min ev.stop e + 1) > e) :
    compAux s e c (ev :: evs) =
      (if max ev.start s > c then [(⟨c, max ev.start s - 1⟩ : Interval)] else []) ++
        compAux s e (max c (min ev.stop e + 1)) evs := by
  simp only [compAux, if_neg h1, if_neg h2, if_neg h3, if_neg h4]

theorem compAux_canon (s e : Int) :
    ∀ (l : List Interval) (c : Int), s ≤ c → (∀ i ∈ l, i.valid) →
      (∀ g ∈ compAux s e c l, c ≤ g.start ∧ g.start ≤ g.stop ∧ g.stop ≤ e) ∧
      List.Pairwise (fun a b => a.stop + 2 ≤ b.start) (compAux s e c l) := by
  intro l
  induction l with
  | nil =>
    intro c hc _
    rw [compAux_nil]
    by_cases h : c ≤ e
    · rw [if_pos h]
      refine ⟨?_, List.pairwise_singleton _ _⟩
      intro g hg
      rcases List.mem_singleton.mp hg with rfl
      exact ⟨le_refl _, h, le_refl _⟩
    · rw [if_neg h]
      exact ⟨fun g hg => absurd hg (List.not_mem_nil g), List.Pairwise.nil⟩
  | cons ev evs ih =>
    intro c hc hv
    have hev : ev.start ≤ ev.stop := hv ev (List.mem_cons_self _ _)
    have hvs : ∀ i ∈ evs, i.valid := fun i hi => hv i (List.mem_cons_of_mem _ hi)
    by_cases h1 : ev.stop < s
    · rw [compAux_cons_skip evs h1]
      exact ih c hc hvs
    by_cases h2 : ev.start > e
    · rw [compAux_cons_break evs h1 h2]
      by_cases h : c ≤ e
      · rw [if_pos h]
        refine ⟨?_, List.pairwise_singleton _ _⟩
        intro g hg
        rcases List.mem_singleton.mp hg with rfl
        exact ⟨le_refl _, h, le_refl _⟩
      · rw [if_neg h]
        exact ⟨fun g hg => absurd hg (List.not_mem_nil g), List.Pairwise.nil⟩
    by_cases h3 : min ev.stop e < c
    · rw [compAux_cons_stale evs h1 h2 h3]
      exact ih c hc hvs
    by_cases h4 : max c (min ev.stop e + 1) > e
    · rw [compAux_cons_last evs h1 h2 h3 h4]
      by_cases h5 : max ev.start s > c
      · rw [if_pos h5]
        refine ⟨?_, List.pairwise_singleton _ _⟩
        intro g hg
        rcases List.mem_singleton.mp hg with rfl
        refine ⟨le_refl _, ?_, ?_⟩ <;> simp only <;> omega
      · rw [if_neg h5]
        exact ⟨fun g hg => absurd hg (List.not_mem_nil g), List.Pairwise.nil⟩
    · rw [compAux_cons_main evs h1 h2 h3 h4]
      have hc' : s ≤ max c (min ev.stop e + 1) := le_trans hc (le_max_left _ _)
      obtain ⟨ihb, ihp⟩ := ih (max c (min ev.stop e + 1)) hc' hvs
      constructor
      · intro g hg
        rcases List.mem_append.mp hg with hg' | hg'
        · by_cases h5 : max ev.start s > c
          · rw [if_pos h5] at hg'
            rcases List.mem_singleton.mp hg' with rfl
            refine ⟨le_refl _, ?_, ?_⟩ <;> simp only <;> omega
          · rw [if_neg h5] at hg'
            cases hg'
        · obtain ⟨hb1, hb2, hb3⟩ := ihb g hg'
          exact ⟨le_trans (le_max_left _ _) hb1, hb2, hb3⟩
      · rw [List.pairwise_append]
        refine ⟨?_, ihp, ?_⟩
        · by_cases h5 : max ev.start s > c
          · rw [if_pos h5]
            exact List.pairwise_singleton _ _
          · rw [if_neg h5]
            exact List.Pairwise.nil
        · intro a ha b hb
          obtain ⟨hb1, hb2, hb3⟩ := ihb b hb
          by_cases h5 : max ev.start s > c
          · rw [if_pos h5] at ha
            rcases List.mem_singleton.mp ha with rfl
            simp only
            omega
          · rw [if_neg h5] at ha
            cases ha

theorem comp_canon {s e : Int} {l : List Interval}
    (hv : ∀ i ∈ l, i.valid) : Canon s e (comp s e l) := by
  obtain ⟨hb, hp⟩ := compAux_canon s e l s (le_refl s) hv
  exact ⟨fun i hi => hb i hi, hp⟩

/-- Key inversion lemma: running `Complement.fetch`'s sweep over the gaps of
a canonical list reproduces the list, prefixed by the gap between the outer
and inner cursors.  Specialised at `c1 = c2 = s` this says the double
complement is the identity on canonical streams. -/
theorem compAux_double (s e : Int) (hse : s ≤ e) :
    ∀ (l : List Interval) (c1 c2 : Int),
      s ≤ c1 → c1 ≤ c2 → c2 ≤ e + 1 →
      (c1 < c2 → ∀ j ∈ l, c2 < j.start) →
      (∀ j ∈ l, c2 ≤ j.start ∧ j.start ≤ j.stop ∧ j.stop ≤ e) →
      List.Pairwise (fun a b => a.stop + 2 ≤ b.start) l →
      compAux s e c1 (compAux s e c2 l) =
        (if c1 < c2 then [(⟨c1, c2 - 1⟩ : Interval)] else []) ++ l := by
  intro l
  induction l with
  | nil =>
    intro c1 c2 hc1 hc12 hc2e _ _ _
    rw [compAux_nil]
    by_cases h : c2 ≤ e
    · rw [if_pos h,
        compAux_cons_last (s := s) (e := e) (c := c1) []
          (by show ¬ (e < s); omega)
          (by show ¬ (c2 > e); omega)
          (by show ¬ (min e e < c1); omega)
          (by show max c1 (min e e + 1) > e; omega),
        List.append_nil,
        max_eq_left (by omega : s ≤ c2)]
    · rw [if_neg h, compAux_nil, List.append_nil]
      have he : c2 - 1 = e := by omega
      by_cases h1 : c1 ≤ e
      · rw [if_pos h1, if_pos (by omega : c1 < c2), he]
      · rw [if_neg h1, if_neg (by omega : ¬ c1 < c2)]
  | cons i is ih =>
    intro c1 c2 hc1 hc12 hc2e hstrict hbnd hpw
    obtain ⟨hic2, hiv, hie⟩ := hbnd i (List.mem_cons_self _ _)
    have hbs : ∀ j ∈ is, c2 ≤ j.start ∧ j.start ≤ j.stop ∧ j.stop ≤ e :=
      fun j hj => hbnd j (List.mem_cons_of_mem _ hj)
    have hsep : ∀ j ∈ is, i.stop + 2 ≤ j.start := (List.pairwise_cons.mp hpw).1
    have hpw' := (List.pairwise_cons.mp hpw).2
    by_cases hstop : max c2 (min i.stop e + 1) > e
    · -- the clipped event reaches the end of the window: i.stop = e, is = []
      have hie2 : i.stop = e := by omega
      have his_nil : is = [] := by
        cases is with
        | nil => rfl
        | cons j js =>
          have h1 := hsep j (List.mem_cons_self _ _)
          have h2 := hbs j (List.mem_cons_self _ _)
          omega
      subst his_nil
      rw [compAux_cons_last []
        (show ¬ i.stop < s by omega)
        (show ¬ i.start > e by omega)
        (show ¬ min i.stop e < c2 by omega)
        hstop]
      by_cases hA : max i.start s > c2
      · rw [if_pos hA,
          compAux_cons_main (s := s) (e := e) (c := c1) []
            (by show ¬ (max i.start s - 1 < s); omega)
            (by show ¬ (c2 > e); omega)
            (by show ¬ (min (max i.start s - 1) e < c1); omega)
            (by show ¬ (max c1 (min (max i.start s - 1) e + 1) > e); omega),
          show max c1 (min (max i.start s - 1) e + 1) = i.start by omega,
          compAux_nil, if_pos (by omega : i.start ≤ e),
          max_eq_left (by omega : s ≤ c2)]
        have hi_eq : (⟨i.start, e⟩ : Interval) = i := by rw [← hie2]
        rw [hi_eq]
      · rw [if_neg hA, compAux_nil]
        have hA' : i.start = c2 := by omega
        have hnlt : ¬ c1 < c2 := fun hlt => by
          have := hstrict hlt i (List.mem_cons_self _ _)
          omega
        rw [if_pos (by omega : c1 ≤ e), if_neg hnlt, List.nil_append]
        have hi_eq : (⟨c1, e⟩ : Interval) = i := by
          rw [show c1 = i.start by omega, ← hie2]
        rw [hi_eq]
    · -- the clipped event ends inside the window; recurse past i.stop + 1
      rw [compAux_cons_main is
        (show ¬ i.stop < s by omega)
        (show ¬ i.start > e by omega)
        (show ¬ min i.stop e < c2 by omega)
        hstop,
        show max c2 (min i.stop e + 1) = i.stop + 1 by omega]
      have hih := ih i.start (i.stop + 1) (by omega) (by omega) (by omega)
        (fun _ j hj => by have := hsep j hj; omega)
        (fun j hj => by have h1 := hbs j hj; have h2 := hsep j hj; omega)
        hpw'
      by_cases hA : max i.start s > c2
      · rw [if_pos hA, max_eq_left (by omega : s ≤ i.start), List.singleton_append,
          compAux_cons_main (s := s) (e := e) (c := c1) _
            (by show ¬ (i.start - 1 < s); omega)
            (by show ¬ (c2 > e); omega)
            (by show ¬ (min (i.start - 1) e < c1); omega)
            (by show ¬ (max c1 (min (i.start - 1) e + 1) > e); omega),
          show max c1 (min (i.start - 1) e + 1) = i.start by omega,
          hih, if_pos (by omega : i.start < i.stop + 1),
          show i.stop + 1 - 1 = i.stop by omega,
          max_eq_left (by omega : s ≤ c2), List.singleton_append]
      · rw [if_neg hA, List.nil_append]
        have hA' : i.start = c2 := by omega
        have hnlt : ¬ c1 < c2 := fun hlt => by
          have := hstrict hlt i (List.mem_cons_self _ _)
          omega
        have hih2 := ih c1 (i.stop + 1) hc1 (by omega) (by omega)
          (fun _ j hj => by have := hsep j hj; omega)
          (fun j hj => by have h1 := hbs j hj; have h2 := hsep j hj; omega)
          hpw'
        rw [hih2, if_pos (by omega : c1 < i.stop + 1),
          show i.stop + 1 - 1 = i.stop by omega,
          if_neg hnlt, List.nil_append, List.singleton_append]
        have hi_eq : (⟨c1, i.stop⟩ : Interval) = i := by
          rw [show c1 = i.start by omega]
        rw [hi_eq]

/-- Double complement is the identity on canonical streams. -/
theorem comp_comp_of_canon {s e : Int} (hse : s ≤ e) {l : List Interval}
    (h : Canon s e l) : comp s e (comp s e l) = l := by
  obtain ⟨hb, hp⟩ := h
  have hd := compAux_double s e hse l s s (le_refl s) (le_refl s) (by omega)
    (fun hlt => absurd hlt (lt_irrefl s)) (fun j hj => hb j hj) hp
  rw [if_neg (lt_irrefl s), List.nil_append] at hd
  exact hd

/-! ## Difference lemmas -/

theorem trail_facts (cursor evEnd : Int) :
    (∀ f ∈ (if cursor ≤ evEnd then [(⟨cursor, evEnd⟩ : Interval)] else []),
      cursor ≤ f.start ∧ f.start ≤ f.stop ∧ f.stop ≤ evEnd) ∧
    List.Pairwise (fun a b => a.stop < b.start)
      (if cursor ≤ evEnd then [(⟨cursor, evEnd⟩ : Interval)] else []) := by
  by_cases h : cursor ≤ evEnd
  · rw [if_pos h]
    exact ⟨fun f hf => by rcases List.mem_singleton.mp hf with rfl; exact ⟨le_refl _, h, le_refl _⟩,
      List.pairwise_singleton _ _⟩
  · rw [if_neg h]
    exact ⟨fun f hf => absurd hf (List.not_mem_nil f), List.Pairwise.nil⟩

/-- Fragments produced by the per-event overlap loop stay between the cursor
and the event end, are valid, and are strictly separated. -/
theorem overlapFrags_facts (evEnd : Int) :
    ∀ (subs : List Interval) (cursor : Int),
      (∀ f ∈ overlapFrags evEnd cursor subs,
        cursor ≤ f.start ∧ f.start ≤ f.stop ∧ f.stop ≤ evEnd) ∧
      List.Pairwise (fun a b => a.stop < b.start) (overlapFrags evEnd cursor subs) := by
  intro subs
  induction subs with
  | nil => intro cursor; exact trail_facts cursor evEnd
  | cons c rest ih =>
    intro cursor
    simp only [overlapFrags]
    split
    · rename_i h1
      split
      · rename_i h2
        split
        · rename_i h3
          by_cases h5 : cursor ≤ max cursor c.start - 1
          · rw [if_pos h5]
            refine ⟨?_, List.pairwise_singleton _ _⟩
            intro f hf
            rcases List.mem_singleton.mp hf with rfl
            refine ⟨le_refl _, h5, ?_⟩
            simp only
            omega
          · rw [if_neg h5]
            exact ⟨fun f hf => absurd hf (List.not_mem_nil f), List.Pairwise.nil⟩
        · rename_i h3
          split
          · rename_i h4
            obtain ⟨ihb, ihp⟩ := ih (min evEnd c.stop + 1)
            constructor
            · intro f hf
              rcases List.mem_append.mp hf with hf' | hf'
              · by_cases h5 : cursor ≤ max cursor c.start - 1
                · rw [if_pos h5] at hf'
                  rcases List.mem_singleton.mp hf' with rfl
                  refine ⟨le_refl _, h5, ?_⟩
                  simp only
                  omega
                · rw [if_neg h5] at hf'
                  cases hf'
              · obtain ⟨g1, g2, g3⟩ := ihb f hf'
                refine ⟨?_, g2, g3⟩
                have : cursor ≤ max cursor c.start := le_max_left _ _
                omega
            · rw [List.pairwise_append]
              refine ⟨?_, ihp, ?_⟩
              · by_cases h5 : cursor ≤ max cursor c.start - 1
                · rw [if_pos h5]; exact List.pairwise_singleton _ _
                · rw [if_neg h5]; exact List.Pairwise.nil
              · intro a ha b hb
                obtain ⟨g1, g2, g3⟩ := ihb b hb
                by_cases h5 : cursor ≤ max cursor c.start - 1
                · rw [if_pos h5] at ha
                  rcases List.mem_singleton.mp ha with rfl
                  simp only
                  omega
                · rw [if_neg h5] at ha
                  cases ha
          · rename_i h4
            constructor
            · intro f hf
              rcases List.mem_append.mp hf with hf' | hf'
              · by_cases h5 : cursor ≤ max cursor c.start - 1
                · rw [if_pos h5] at hf'
                  rcases List.mem_singleton.mp hf' with rfl
                  refine ⟨le_refl _, h5, ?_⟩
                  simp only
                  omega
                · rw [if_neg h5] at hf'
                  cases hf'
              · rcases List.mem_singleton.mp hf' with rfl
                have : cursor ≤ max cursor c.start := le_max_left _ _
                refine ⟨?_, ?_, ?_⟩ <;> simp only <;> omega
            · rw [List.pairwise_append]
              refine ⟨?_, List.pairwise_singleton _ _, ?_⟩
              · by_cases h5 : cursor ≤ max cursor c.start - 1
                · rw [if_pos h5]; exact List.pairwise_singleton _ _
                · rw [if_neg h5]; exact List.Pairwise.nil
              · intro a ha b hb
                rcases List.mem_singleton.mp hb with rfl
                by_cases h5 : cursor ≤ max cursor c.start - 1
                · rw [if_pos h5] at ha
                  rcases List.mem_singleton.mp ha with rfl
                  simp only
                  omega
                · rw [if_neg h5] at ha
                  cases ha
      · rename_i h2
        split
        · exact ih cursor
        · exact trail_facts cursor evEnd
    · exact trail_facts cursor evEnd

theorem covered_append {t : Int} {l1 l2 : List Interval} :
    covered t (l1 ++ l2) ↔ covered t l1 ∨ covered t l2 := by
  unfold covered
  constructor
  · rintro ⟨i, hi, h⟩
    rcases List.mem_append.mp hi with hi' | hi'
    · exact Or.inl ⟨i, hi', h⟩
    · exact Or.inr ⟨i, hi', h⟩
  · rintro (⟨i, hi, h⟩ | ⟨i, hi, h⟩)
    · exact ⟨i, List.mem_append.mpr (Or.inl hi), h⟩
    · exact ⟨i, List.mem_append.mpr (Or.inr hi), h⟩

theorem covered_subset {t : Int} {l1 l2 : List Interval}
    (hsub : ∀ x ∈ l1, x ∈ l2) (h : covered t l1) : covered t l2 := by
  obtain ⟨i, hi, h⟩ := h
  exact ⟨i, hsub i hi, h⟩

theorem skipPhase_subset (cursor : Int) :
    ∀ (subs : List Interval), ∀ x ∈ skipPhase cursor subs, x ∈ subs := by
  intro subs
  induction subs with
  | nil => intro x hx; cases hx
  | cons c rest ih =>
    intro x hx
    simp only [skipPhase] at hx
    split at hx
    · exact List.mem_cons_of_mem _ (ih x hx)
    · exact hx

theorem overlapRest_subset (evEnd : Int) :
    ∀ (subs : List Interval) (cursor : Int), ∀ x ∈ overlapRest evEnd cursor subs, x ∈ subs := by
  intro subs
  induction subs with
  | nil => intro cursor x hx; cases hx
  | cons c rest ih =>
    intro cursor x hx
    simp only [overlapRest] at hx
    split at hx
    · split at hx
      · split at hx
        · exact hx
        · split at hx
          · exact List.mem_cons_of_mem _ (ih _ x hx)
          · exact hx
      · split at hx
        · exact List.mem_cons_of_mem _ (ih _ x hx)
        · exact hx
    · exact hx

theorem diffEvent_rest_subset (ev : Interval) (subs : List Interval) :
    ∀ x ∈ (diffEvent ev subs).2, x ∈ subs := by
  intro x hx
  unfold diffEvent at hx
  split at hx
  · cases hx
  · rename_i c rest hs
    have hx' := overlapRest_subset ev.stop (c :: rest) ev.start x hx
    have : ∀ y ∈ c :: rest, y ∈ subs := by
      rw [← hs]
      exact skipPhase_subset ev.start subs
    exact this x hx'

/-- Fragments produced for one source event stay inside it (given that the
event is valid, which `Interval.__post_init__` guarantees). -/
theorem diffEvent_frags (ev : Interval) (hv : ev.valid) (subs : List Interval) :
    (∀ f ∈ (diffEvent ev subs).1,
      ev.start ≤ f.start ∧ f.start ≤ f.stop ∧ f.stop ≤ ev.stop) ∧
    List.Pairwise (fun a b => a.stop < b.start) (diffEvent ev subs).1 := by
  unfold diffEvent
  split
  · refine ⟨?_, List.pairwise_singleton _ _⟩
    intro f hf
    rcases List.mem_singleton.mp hf with rfl
    exact ⟨le_refl _, hv, le_refl _⟩
  · exact overlapFrags_facts ev.stop _ ev.start

/-- All fragments of the difference sweep lie inside some source event, and
under strict separation of the source events the output is strictly
separated (hence ordered). -/
theorem diffLoop_facts :
    ∀ (evs : List Interval) (subs : List Interval),
      (∀ ev ∈ evs, ev.valid) →
      List.Pairwise (fun a b => a.stop < b.start) evs →
      (∀ f ∈ diffLoop subs evs,
        ∃ ev ∈ evs, ev.start ≤ f.start ∧ f.start ≤ f.stop ∧ f.stop ≤ ev.stop) ∧
      List.Pairwise (fun a b => a.stop < b.start) (diffLoop subs evs) := by
  intro evs
  induction evs with
  | nil =>
    intro subs _ _
    exact ⟨fun f hf => absurd hf (List.not_mem_nil f), List.Pairwise.nil⟩
  | cons ev evs ih =>
    intro subs hv hpw
    have hev : ev.valid := hv ev (List.mem_cons_self _ _)
    obtain ⟨hfr, hfrp⟩ := diffEvent_frags ev hev subs
    obtain ⟨ihb, ihp⟩ := ih (diffEvent ev subs).2
      (fun x hx => hv x (List.mem_cons_of_mem _ hx)) (List.pairwise_cons.mp hpw).2
    have hsepev := (List.pairwise_cons.mp hpw).1
    constructor
    · intro f hf
      rcases List.mem_append.mp hf with hf' | hf'
      · exact ⟨ev, List.mem_cons_self _ _, hfr f hf'⟩
      · obtain ⟨ev2, hev2, hb⟩ := ihb f hf'
        exact ⟨ev2, List.mem_cons_of_mem _ hev2, hb⟩
    · show List.Pairwise _ ((diffEvent ev subs).1 ++ diffLoop (diffEvent ev subs).2 evs)
      rw [List.pairwise_append]
      refine ⟨hfrp, ihp, ?_⟩
      intro a ha b hb
      obtain ⟨_, _, ha3⟩ := hfr a ha
      obtain ⟨ev2, hev2, hb1, _, _⟩ := ihb b hb
      have := hsepev ev2 hev2
      omega

/-- Every second of a source event either survives into a fragment of this
event or lies inside one of the (remaining) subtractor intervals. -/
theorem overlapFrags_cover (evEnd : Int) :
    ∀ (subs : List Interval) (cursor t : Int), cursor ≤ t → t ≤ evEnd →
      covered t (overlapFrags evEnd cursor subs) ∨ covered t subs := by
  intro subs
  induction subs with
  | nil =>
    intro cursor t h1 h2
    left
    simp only [overlapFrags, if_pos (le_trans h1 h2)]
    exact ⟨⟨cursor, evEnd⟩, List.mem_singleton.mpr rfl, h1, h2⟩
  | cons c rest ih =>
    intro cursor t ht1 ht2
    simp only [overlapFrags]
    split
    · rename_i h1
      split
      · rename_i h2
        by_cases hgap : t ≤ max cursor c.start - 1
        · -- t lies before the hole: it is in the emitted gap fragment
          have hcond : cursor ≤ max cursor c.start - 1 := by omega
          split
          · exact Or.inl ⟨⟨cursor, max cursor c.start - 1⟩,
              List.mem_singleton.mpr rfl, ht1, hgap⟩
          · split
            · refine Or.inl (covered_append.mpr (Or.inl ?_))
              exact ⟨⟨cursor, max cursor c.start - 1⟩, List.mem_singleton.mpr rfl, ht1, hgap⟩
            · refine Or.inl (covered_append.mpr (Or.inl ?_))
              exact ⟨⟨cursor, max cursor c.start - 1⟩, List.mem_singleton.mpr rfl, ht1, hgap⟩
        · by_cases hin : t ≤ min evEnd c.stop
          · -- t lies in the hole: it is covered by the subtractor itself
            exact Or.inr ⟨c, List.mem_cons_self _ _, by omega, by omega⟩
          · -- t lies past the hole
            split
            · rename_i h3
              omega
            · rename_i h3
              split
              · rename_i h4
                rcases ih (min evEnd c.stop + 1) t (by omega) ht2 with hc | hc
                · exact Or.inl (covered_append.mpr (Or.inr hc))
                · exact Or.inr (covered_subset (fun x hx => List.mem_cons_of_mem _ hx) hc)
              · rename_i h4
                refine Or.inl (covered_append.mpr (Or.inr ?_))
                exact ⟨⟨min evEnd c.stop + 1, evEnd⟩, List.mem_singleton.mpr rfl,
                  by omega, ht2⟩
      · rename_i h2
        split
        · rcases ih cursor t ht1 ht2 with hc | hc
          · exact Or.inl hc
          · exact Or.inr (covered_subset (fun x hx => List.mem_cons_of_mem _ hx) hc)
        · exact Or.inl ⟨⟨cursor, evEnd⟩,
            by rw [if_pos (le_trans ht1 ht2)]; exact List.mem_singleton.mpr rfl, ht1, ht2⟩
    · exact Or.inl ⟨⟨cursor, evEnd⟩,
        by rw [if_pos (le_trans ht1 ht2)]; exact List.mem_singleton.mpr rfl, ht1, ht2⟩

theorem diffEvent_cover (ev : Interval) (subs : List Interval) (t : Int)
    (h1 : ev.start ≤ t) (h2 : t ≤ ev.stop) :
    covered t (diffEvent ev subs).1 ∨ covered t subs := by
  unfold diffEvent
  split
  · exact Or.inl ⟨ev, List.mem_singleton.mpr rfl, h1, h2⟩
  · rename_i c rest hs
    rcases overlapFrags_cover ev.stop (c :: rest) ev.start t h1 h2 with hc | hc
    · exact Or.inl hc
    · refine Or.inr (covered_subset ?_ hc)
      rw [← hs]
      exact skipPhase_subset ev.start subs

theorem diffLoop_cover :
    ∀ (evs subs : List Interval) (ev : Interval) (t : Int),
      ev ∈ evs → ev.start ≤ t → t ≤ ev.stop →
      covered t (diffLoop subs evs) ∨ covered t subs := by
  intro evs
  induction evs with
  | nil => intro subs ev t hev _ _; cases hev
  | cons e1 evs ih =>
    intro subs ev t hev h1 h2
    rcases List.mem_cons.mp hev with hev' | hev'
    · subst hev'
      rcases diffEvent_cover ev subs t h1 h2 with hc | hc
      · exact Or.inl (covered_append.mpr (Or.inl hc))
      · exact Or.inr hc
    · rcases ih (diffEvent e1 subs).2 ev t hev' h1 h2 with hc | hc
      · exact Or.inl (covered_append.mpr (Or.inr hc))
      · exact Or.inr (covered_subset (diffEvent_rest_subset e1 subs) hc)

/-! ## Intersection lemmas -/

theorem le_maxList : ∀ (l : List Int), ∀ x ∈ l, x ≤ maxList l := by
  intro l
  induction l with
  | nil => intro x hx; cases hx
  | cons a as ih =>
    intro x hx
    cases as with
    | nil =>
      rcases List.mem_singleton.mp hx with rfl
      exact le_refl _
    | cons b bs =>
      show x ≤ max a (maxList (b :: bs))
      rcases List.mem_cons.mp hx with rfl | hx'
      · exact le_max_left _ _
      · exact le_trans (ih x hx') (le_max_right _ _)

theorem minList_le : ∀ (l : List Int), ∀ x ∈ l, minList l ≤ x := by
  intro l
  induction l with
  | nil => intro x hx; cases hx
  | cons a as ih =>
    intro x hx
    cases as with
    | nil =>
      rcases List.mem_singleton.mp hx with rfl
      exact le_refl _
    | cons b bs =>
      show min a (minList (b :: bs)) ≤ x
      rcases List.mem_cons.mp hx with rfl | hx'
      · exact min_le_left _ _
      · exact le_trans (min_le_right _ _) (ih x hx')

/-- The relation between the intersection sweep state before and after the
advance loop: each source either kept its current interval (its end missed
the cutoff) or pulled the next interval from its stream. -/
def Advanced (cutoff : Int) (p q : Interval × List Interval) : Prop :=
  (q = p ∧ p.1.stop ≠ cutoff) ∨ (p.1.stop = cutoff ∧ p.2 = q.1 :: q.2)

theorem restSum_cons (p : Interval × List Interval) (ps : List (Interval × List Interval)) :
    restSum (p :: ps) = p.2.length + restSum ps := by
  simp [restSum]

theorem forall2_restSum_le {cutoff : Int} :
    ∀ {st st' : List (Interval × List Interval)},
      List.Forall₂ (Advanced cutoff) st st' → restSum st' ≤ restSum st := by
  intro st st' h
  induction h with
  | nil => exact le_refl _
  | @cons p q tl tl' hpq htl ih =>
    rw [restSum_cons, restSum_cons]
    rcases hpq with ⟨rfl, _⟩ | ⟨_, hadv⟩
    · omega
    · have : p.2.length = q.2.length + 1 := by rw [hadv]; simp
      omega

theorem advanceAll_some {cutoff : Int} :
    ∀ (st st' : List (Interval × List Interval)) (b : Bool),
      advanceAll cutoff st = some (st', b) →
      List.Forall₂ (Advanced cutoff) st st' ∧
        (b = true → restSum st' < restSum st) := by
  intro st
  induction st with
  | nil =>
    intro st' b h
    simp only [advanceAll, Option.some.injEq, Prod.mk.injEq] at h
    obtain ⟨rfl, rfl⟩ := h
    exact ⟨List.Forall₂.nil, fun h => by cases h⟩
  | cons p tl ih =>
    intro st' b h
    obtain ⟨cur, rest⟩ := p
    simp only [advanceAll] at h
    split at h
    · rename_i heq
      cases rest with
      | nil => simp at h
      | cons r rs =>
        cases hrec : advanceAll cutoff tl with
        | none => rw [hrec] at h; simp at h
        | some res =>
          obtain ⟨tl', b'⟩ := res
          rw [hrec] at h
          simp only [Option.some.injEq, Prod.mk.injEq] at h
          obtain ⟨rfl, rfl⟩ := h
          obtain ⟨hf, _⟩ := ih tl' b' hrec
          refine ⟨List.Forall₂.cons (Or.inr ⟨heq, rfl⟩) hf, fun _ => ?_⟩
          have hle := forall2_restSum_le hf
          rw [restSum_cons, restSum_cons]
          simp only [List.length_cons]
          omega
    · rename_i heq
      cases hrec : advanceAll cutoff tl with
      | none => rw [hrec] at h; simp at h
      | some res =>
        obtain ⟨tl', b'⟩ := res
        rw [hrec] at h
        simp only [Option.some.injEq, Prod.mk.injEq] at h
        obtain ⟨rfl, rfl⟩ := h
        obtain ⟨hf, hlt⟩ := ih tl' b' hrec
        refine ⟨List.Forall₂.cons (Or.inl ⟨rfl, heq⟩) hf, fun hb => ?_⟩
        have := hlt hb
        rw [restSum_cons, restSum_cons]
        omega

/-- When the advance loop reports progress, at least one source really pulled
its next interval. -/
theorem advanceAll_true_exists {cutoff : Int} :
    ∀ (st st' : List (Interval × List Interval)),
      advanceAll cutoff st = some (st', true) →
      ∃ p ∈ st, ∃ q ∈ st', p.1.stop = cutoff ∧ p.2 = q.1 :: q.2 := by
  intro st
  induction st with
  | nil =>
    intro st' h
    simp [advanceAll] at h
  | cons p tl ih =>
    intro st' h
    obtain ⟨cur, rest⟩ := p
    simp only [advanceAll] at h
    split at h
    · rename_i heq
      cases rest with
      | nil => simp at h
      | cons r rs =>
        cases hrec : advanceAll cutoff tl with
        | none => rw [hrec] at h; simp at h
        | some res =>
          obtain ⟨tl', b'⟩ := res
          rw [hrec] at h
          simp only [Option.some.injEq, Prod.mk.injEq] at h
          obtain ⟨rfl, _⟩ := h
          exact ⟨(cur, r :: rs), List.mem_cons_self _ _, (r, rs),
            List.mem_cons_self _ _, heq, rfl⟩
    · rename_i heq
      cases hrec : advanceAll cutoff tl with
      | none => rw [hrec] at h; simp at h
      | some res =>
        obtain ⟨tl', b'⟩ := res
        rw [hrec] at h
        simp only [Option.some.injEq, Prod.mk.injEq] at h
        obtain ⟨rfl, rfl⟩ := h
        obtain ⟨p', hp', q', hq', hcond⟩ := ih tl' hrec
        exact ⟨p', List.mem_cons_of_mem _ hp', q', List.mem_cons_of_mem _ hq', hcond⟩

theorem forall2_mem_left {α β : Type} {R : α → β → Prop} :
    ∀ {l1 : List α} {l2 : List β}, List.Forall₂ R l1 l2 →
      ∀ a ∈ l1, ∃ b ∈ l2, R a b := by
  intro l1 l2 h
  induction h with
  | nil => intro a ha; cases ha
  | cons hpq _ ih =>
    intro a ha
    rcases List.mem_cons.mp ha with rfl | ha'
    · exact ⟨_, List.mem_cons_self _ _, hpq⟩
    · obtain ⟨b, hb, hr⟩ := ih a ha'
      exact ⟨b, List.mem_cons_of_mem _ hb, hr⟩

theorem forall2_mem_right {α β : Type} {R : α → β → Prop} :
    ∀ {l1 : List α} {l2 : List β}, List.Forall₂ R l1 l2 →
      ∀ b ∈ l2, ∃ a ∈ l1, R a b := by
  intro l1 l2 h
  induction h with
  | nil => intro b hb; cases hb
  | cons hpq _ ih =>
    intro b hb
    rcases List.mem_cons.mp hb with rfl | hb'
    · exact ⟨_, List.mem_cons_self _ _, hpq⟩
    · obtain ⟨a, ha, hr⟩ := ih b hb'
      exact ⟨a, List.mem_cons_of_mem _ ha, hr⟩

/-- Every interval in a post-advance entry already appeared in the
pre-advance entry. -/
theorem advanced_entry_subset {cutoff : Int} {p q : Interval × List Interval}
    (h : Advanced cutoff p q) : ∀ x ∈ q.1 :: q.2, x ∈ p.1 :: p.2 := by
  rcases h with ⟨rfl, _⟩ | ⟨_, hadv⟩
  · exact fun x hx => hx
  · exact fun x hx => List.mem_cons_of_mem _ (hadv ▸ hx)

theorem isectLoopFuel_valid :
    ∀ (f : Nat) (st : List (Interval × List Interval)),
      ∀ w ∈ isectLoopFuel f st, w.start ≤ w.stop := by
  intro f
  induction f with
  | zero => intro st w hw; cases hw
  | succ f ih =>
    intro st w hw
    cases st with
    | nil => cases hw
    | cons p ps =>
      simp only [isectLoopFuel] at hw
      rcases List.mem_append.mp hw with hw' | hw'
      · split at hw'
        · rcases List.mem_singleton.mp hw' with rfl
          assumption
        · cases hw'
      · cases hadv : advanceAll (minList ((p :: ps).map (fun q => q.1.stop))) (p :: ps) with
        | none => rw [hadv] at hw'; cases hw'
        | some res =>
          obtain ⟨st', b⟩ := res
          rw [hadv] at hw'
          cases b with
          | true => exact ih st' w hw'
          | false => cases hw'

/-- Every emitted window is contained in some interval of every source
stream that reached the sweep state. -/
theorem isectLoopFuel_contained :
    ∀ (f : Nat) (st : List (Interval × List Interval)),
      ∀ w ∈ isectLoopFuel f st, ∀ p ∈ st,
        ∃ x ∈ p.1 :: p.2, x.start ≤ w.start ∧ w.stop ≤ x.stop := by
  intro f
  induction f with
  | zero => intro st w hw; cases hw
  | succ f ih =>
    intro st w hw p hp
    cases st with
    | nil => cases hw
    | cons p0 ps =>
      simp only [isectLoopFuel] at hw
      rcases List.mem_append.mp hw with hw' | hw'
      · split at hw'
        · rcases List.mem_singleton.mp hw' with rfl
          refine ⟨p.1, List.mem_cons_self _ _, ?_, ?_⟩
          · exact le_maxList _ _ (List.mem_map_of_mem _ hp)
          · exact minList_le _ _ (List.mem_map_of_mem _ hp)
        · cases hw'
      · cases hadv : advanceAll (minList ((p0 :: ps).map (fun q => q.1.stop))) (p0 :: ps) with
        | none => rw [hadv] at hw'; cases hw'
        | some res =>
          obtain ⟨st', b⟩ := res
          rw [hadv] at hw'
          cases b with
          | true =>
            obtain ⟨hf, _⟩ := advanceAll_some _ _ _ hadv
            obtain ⟨q, hq, hr⟩ := forall2_mem_left hf p hp
            obtain ⟨x, hx, hx1, hx2⟩ := ih st' w hw' q hq
            exact ⟨x, advanced_entry_subset hr x hx, hx1, hx2⟩
          | false => cases hw'

/-- Fuel irrelevance: with at least `restSum st + 1` steps the sweep always
terminates by itself, so all sufficient fuels agree. -/
theorem isectLoopFuel_congr :
    ∀ (f g : Nat) (st : List (Interval × List Interval)),
      restSum st < f → restSum st < g →
      isectLoopFuel f st = isectLoopFuel g st := by
  intro f
  induction f with
  | zero => intro g st hf; omega
  | succ f ih =>
    intro g st hf hg
    cases g with
    | zero => omega
    | succ g =>
      cases st with
      | nil => rfl
      | cons p ps =>
        simp only [isectLoopFuel]
        cases hadv : advanceAll (minList ((p :: ps).map (fun q => q.1.stop))) (p :: ps) with
        | none => rfl
        | some res =>
          obtain ⟨st', b⟩ := res
          cases b with
          | true =>
            obtain ⟨_, hlt⟩ := advanceAll_some _ _ _ hadv
            have := hlt rfl
            dsimp only
            rw [ih g st' (by omega) (by omega)]
          | false => rfl

theorem forall2_map_le {α : Type} {S : α → α → Prop} {f : α → Int}
    (hfg : ∀ p q, S p q → f p ≤ f q) :
    ∀ {l1 l2 : List α}, List.Forall₂ S l1 l2 →
      List.Forall₂ (fun x y => x ≤ y) (l1.map f) (l2.map f) := by
  intro l1 l2 h
  induction h with
  | nil => exact List.Forall₂.nil
  | @cons p q tl tl' hpq htl ih => exact List.Forall₂.cons (hfg p q hpq) ih

theorem maxList_mono :
    ∀ {l1 l2 : List Int}, List.Forall₂ (fun x y => x ≤ y) l1 l2 →
      maxList l1 ≤ maxList l2 := by
  intro l1 l2 h
  induction h with
  | nil => exact le_refl _
  | @cons x y tl tl' hxy htl ih =>
    cases htl with
    | nil => exact hxy
    | @cons x2 y2 tl2 tl2' h2 h3 =>
      show max x (maxList (x2 :: tl2)) ≤ max y (maxList (y2 :: tl2'))
      exact max_le_max hxy ih

theorem forall2_imp_mem {α β : Type} {R S : α → β → Prop} :
    ∀ {l1 : List α} {l2 : List β}, List.Forall₂ R l1 l2 →
      (∀ a ∈ l1, ∀ b, R a b → S a b) → List.Forall₂ S l1 l2 := by
  intro l1 l2 h
  induction h with
  | nil => intro _; exact List.Forall₂.nil
  | @cons p q tl tl' hpq htl ih =>
    intro himp
    exact List.Forall₂.cons (himp p (List.mem_cons_self _ _) q hpq)
      (ih fun a ha b hr => himp a (List.mem_cons_of_mem _ ha) b hr)

/-- When streams are internally ordered, advancing never decreases a current
interval's start, so the sweep's `overlap_start` is monotone. -/
theorem maxStart_mono {cutoff : Int} {st st' : List (Interval × List Interval)}
    (hf : List.Forall₂ (Advanced cutoff) st st')
    (hs : ∀ p ∈ st, SortedLex (p.1 :: p.2)) :
    maxList (st.map (fun q => q.1.start)) ≤ maxList (st'.map (fun q => q.1.start)) := by
  have h2 : List.Forall₂ (fun p q => p.1.start ≤ q.1.start) st st' := by
    refine forall2_imp_mem hf ?_
    intro p hp q hr
    rcases hr with ⟨rfl, _⟩ | ⟨_, hadv⟩
    · exact le_refl _
    · have hq1 : q.1 ∈ p.2 := hadv ▸ List.mem_cons_self _ _
      have := (List.pairwise_cons.mp (hs p hp)).1 q.1 hq1
      rcases this with h | ⟨h, _⟩
      · exact le_of_lt h
      · exact le_of_eq h
  exact maxList_mono (forall2_map_le (fun p q h => h) h2)

theorem isectLoopFuel_ordered :
    ∀ (f : Nat) (st : List (Interval × List Interval)),
      (∀ p ∈ st, SortedLex (p.1 :: p.2)) →
      (∀ p ∈ st, Disjoint2 (p.1 :: p.2)) →
      (∀ w ∈ isectLoopFuel f st,
        maxList (st.map (fun q => q.1.start)) ≤ w.start) ∧
      List.Pairwise (fun a b => a.stop < b.start) (isectLoopFuel f st) := by
  intro f
  induction f with
  | zero =>
    intro st _ _
    exact ⟨fun w hw => absurd hw (List.not_mem_nil w), List.Pairwise.nil⟩
  | succ f ih =>
    intro st hs hd
    cases st with
    | nil => exact ⟨fun w hw => absurd hw (List.not_mem_nil w), List.Pairwise.nil⟩
    | cons p0 ps =>
      simp only [isectLoopFuel]
      cases hadv : advanceAll (minList ((p0 :: ps).map (fun q => q.1.stop))) (p0 :: ps) with
      | none =>
        rw [List.append_nil]
        split
        · rename_i hle
          refine ⟨?_, List.pairwise_singleton _ _⟩
          intro w hw
          rcases List.mem_singleton.mp hw with rfl
          exact le_refl _
        · exact ⟨fun w hw => absurd hw (List.not_mem_nil w), List.Pairwise.nil⟩
      | some res =>
        obtain ⟨st', b⟩ := res
        cases b with
        | false =>
          rw [List.append_nil]
          split
          · rename_i hle
            refine ⟨?_, List.pairwise_singleton _ _⟩
            intro w hw
            rcases List.mem_singleton.mp hw with rfl
            exact le_refl _
          · exact ⟨fun w hw => absurd hw (List.not_mem_nil w), List.Pairwise.nil⟩
        | true =>
          obtain ⟨hf2, _⟩ := advanceAll_some _ _ _ hadv
          have hs' : ∀ q ∈ st', SortedLex (q.1 :: q.2) := by
            intro q hq
            obtain ⟨p, hp, hr⟩ := forall2_mem_right hf2 q hq
            rcases hr with ⟨heq, -⟩ | ⟨-, hadv'⟩
            · rw [heq]; exact hs p hp
            · exact hadv' ▸ (List.pairwise_cons.mp (hs p hp)).2
          have hd' : ∀ q ∈ st', Disjoint2 (q.1 :: q.2) := by
            intro q hq
            obtain ⟨p, hp, hr⟩ := forall2_mem_right hf2 q hq
            rcases hr with ⟨heq, -⟩ | ⟨-, hadv'⟩
            · rw [heq]; exact hd p hp
            · exact hadv' ▸ (List.pairwise_cons.mp (hd p hp)).2
          obtain ⟨ihb, ihp⟩ := ih st' hs' hd'
          have hmono := maxStart_mono hf2 hs
          have hgt : minList ((p0 :: ps).map (fun q => q.1.stop)) <
              maxList (st'.map (fun q => q.1.start)) := by
            obtain ⟨p, hp, q, hq, hstop, hadv'⟩ := advanceAll_true_exists _ _ hadv
            have hq1 : q.1 ∈ p.2 := hadv' ▸ List.mem_cons_self _ _
            have hsepq := (List.pairwise_cons.mp (hd p hp)).1 q.1 hq1
            have hle := le_maxList (st'.map (fun r => r.1.start)) q.1.start
              (List.mem_map_of_mem _ hq)
            omega
          constructor
          · intro w hw
            rcases List.mem_append.mp hw with hw' | hw'
            · split at hw'
              · rcases List.mem_singleton.mp hw' with rfl
                exact le_refl _
              · cases hw'
            · exact le_trans hmono (ihb w hw')
          · rw [List.pairwise_append]
            refine ⟨?_, ihp, ?_⟩
            · split
              · exact List.pairwise_singleton _ _
              · exact List.Pairwise.nil
            · intro a ha b hb
              split at ha
              · rcases List.mem_singleton.mp ha with rfl
                have := ihb b hb
                simp only
                omega
              · cases ha

theorem maxList_two (x y : Int) : maxList [x, y] = max x y := rfl

theorem minList_two (x y : Int) : minList [x, y] = min x y := rfl

theorem restSum_two (a b : Interval) (as bs : List Interval) :
    restSum [(a, as), (b, bs)] = as.length + bs.length := by
  simp [restSum]

theorem sortedLex_head_le {a : Interval} {as : List Interval}
    (h : SortedLex (a :: as)) : ∀ x ∈ a :: as, a.start ≤ x.start := by
  intro x hx
  rcases List.mem_cons.mp hx with rfl | hx'
  · exact le_refl _
  · rcases (List.pairwise_cons.mp h).1 x hx' with h' | ⟨h', _⟩
    · exact le_of_lt h'
    · exact le_of_eq h'

/-- The two-source advance step, fully case-analysed. -/
theorem advanceAll_two (cutoff : Int) (a b : Interval) (as bs : List Interval) :
    advanceAll cutoff [(a, as), (b, bs)] =
      if a.stop = cutoff then
        match as with
        | [] => none
        | a' :: as' =>
          if b.stop = cutoff then
            match bs with
            | [] => none
            | b' :: bs' => some ([(a', as'), (b', bs')], true)
          else some ([(a', as'), (b, bs)], true)
      else
        if b.stop = cutoff then
          match bs with
          | [] => none
          | b' :: bs' => some ([(a, as), (b', bs')], true)
        else some ([(a, as), (b, bs)], false) := by
  by_cases hae : a.stop = cutoff
  · rw [if_pos hae]
    cases as with
    | nil => simp [advanceAll, hae]
    | cons a' as' =>
      dsimp only
      by_cases hbe : b.stop = cutoff
      · rw [if_pos hbe]
        cases bs with
        | nil => simp [advanceAll, hae, hbe]
        | cons b' bs' => simp [advanceAll, hae, hbe]
      · rw [if_neg hbe]
        simp [advanceAll, hae, hbe]
  · rw [if_neg hae]
    by_cases hbe : b.stop = cutoff
    · rw [if_pos hbe]
      cases bs with
      | nil => simp [advanceAll, hae, hbe]
      | cons b' bs' => simp [advanceAll, hae, hbe]
    · rw [if_neg hbe]
      simp [advanceAll, hae, hbe]

/-- Lemma I: on ordered streams of valid intervals, every second covered by
both sources lies in an emitted overlap window — also across the
StopIteration-on-advance early return (with enough fuel). -/
theorem isectLoopFuel_cover :
    ∀ (f : Nat) (a b : Interval) (as bs : List Interval) (t : Int),
      restSum [(a, as), (b, bs)] < f →
      SortedLex (a :: as) → SortedLex (b :: bs) →
      (∀ x ∈ a :: as, x.valid) → (∀ y ∈ b :: bs, y.valid) →
      covered t (a :: as) → covered t (b :: bs) →
      covered t (isectLoopFuel f [(a, as), (b, bs)]) := by
  intro f
  induction f with
  | zero =>
    intro a b as bs t hfuel
    exact absurd hfuel (Nat.not_lt_zero _)
  | succ f ih =>
    intro a b as bs t hfuel hsa hsb hva hvb hca hcb
    obtain ⟨x, hx, hx1, hx2⟩ := hca
    obtain ⟨y, hy, hy1, hy2⟩ := hcb
    have hxa : a.start ≤ x.start := sortedLex_head_le hsa x hx
    have hyb : b.start ≤ y.start := sortedLex_head_le hsb y hy
    rw [restSum_two] at hfuel
    simp only [isectLoopFuel, List.map_cons, List.map_nil, maxList_two, minList_two,
      advanceAll_two]
    have hout : ∀ (rest : List Interval), max a.start b.start ≤ t → t ≤ min a.stop b.stop →
        covered t ((if max a.start b.start ≤ min a.stop b.stop then
          [(⟨max a.start b.start, min a.stop b.stop⟩ : Interval)] else []) ++ rest) := by
      intro rest h1 h2
      rw [if_pos (le_trans h1 h2)]
      exact covered_append.mpr (Or.inl ⟨_, List.mem_singleton.mpr rfl, h1, h2⟩)
    by_cases hae : a.stop = min a.stop b.stop
    · rw [if_pos hae]
      cases as with
      | nil =>
        rcases List.mem_singleton.mp hx with rfl
        exact hout _ (by omega) (by omega)
      | cons a' as' =>
        dsimp only
        by_cases hbe : b.stop = min a.stop b.stop
        · rw [if_pos hbe]
          cases bs with
          | nil =>
            rcases List.mem_singleton.mp hy with rfl
            exact hout _ (by omega) (by omega)
          | cons b' bs' =>
            rcases List.mem_cons.mp hx with rfl | hx'
            · exact hout _ (by omega) (by omega)
            rcases List.mem_cons.mp hy with rfl | hy'
            · exact hout _ (by omega) (by omega)
            refine covered_append.mpr (Or.inr ?_)
            exact ih a' b' as' bs' t
              (by rw [restSum_two]; simp only [List.length_cons] at hfuel; omega)
              (List.pairwise_cons.mp hsa).2 (List.pairwise_cons.mp hsb).2
              (fun z hz => hva z (List.mem_cons_of_mem _ hz))
              (fun z hz => hvb z (List.mem_cons_of_mem _ hz))
              ⟨x, hx', hx1, hx2⟩ ⟨y, hy', hy1, hy2⟩
        · rw [if_neg hbe]
          rcases List.mem_cons.mp hx with rfl | hx'
          · exact hout _ (by omega) (by omega)
          refine covered_append.mpr (Or.inr ?_)
          exact ih a' b as' bs t
            (by rw [restSum_two]; simp only [List.length_cons] at hfuel; omega)
            (List.pairwise_cons.mp hsa).2 hsb
            (fun z hz => hva z (List.mem_cons_of_mem _ hz)) hvb
            ⟨x, hx', hx1, hx2⟩ ⟨y, hy, hy1, hy2⟩
    · rw [if_neg hae]
      by_cases hbe : b.stop = min a.stop b.stop
      · rw [if_pos hbe]
        cases bs with
        | nil =>
          rcases List.mem_singleton.mp hy with rfl
          exact hout _ (by omega) (by omega)
        | cons b' bs' =>
          rcases List.mem_cons.mp hy with rfl | hy'
          · exact hout _ (by omega) (by omega)
          refine covered_append.mpr (Or.inr ?_)
          exact ih a b' as bs' t
            (by rw [restSum_two]; simp only [List.length_cons] at hfuel; omega)
            hsa (List.pairwise_cons.mp hsb).2
            hva (fun z hz => hvb z (List.mem_cons_of_mem _ hz))
            ⟨x, hx, hx1, hx2⟩ ⟨y, hy', hy1, hy2⟩
      · rw [if_neg hbe]
        omega

/-- Initialising the sweep on two nonempty streams. -/
theorem isectInit_two (a b : Interval) (as bs : List Interval) :
    isectInit [a :: as, b :: bs] = some [(a, as), (b, bs)] := rfl

theorem intersectionWindows_two (a b : Interval) (as bs : List Interval) :
    intersectionWindows [a :: as, b :: bs] =
      isectLoopFuel (restSum [(a, as), (b, bs)] + 1) [(a, as), (b, bs)] := rfl

theorem intersectionWindows_valid (streams : List (List Interval)) :
    ∀ w ∈ intersectionWindows streams, w.start ≤ w.stop := by
  intro w hw
  unfold intersectionWindows at hw
  split at hw
  · cases hw
  · split at hw
    · cases hw
    · exact isectLoopFuel_valid _ _ w hw

theorem pairwise_replicate {α : Type} {r : α → α → Prop} {a : α} (h : r a a) :
    ∀ n, List.Pairwise r (List.replicate n a) := by
  intro n
  induction n with
  | zero => exact List.Pairwise.nil
  | succ n ih =>
    rw [List.replicate_succ]
    refine List.pairwise_cons.mpr ⟨?_, ih⟩
    intro b hb
    rcases List.eq_of_mem_replicate hb with rfl
    exact h

theorem covered_flatMap_replicate {t : Int} {k : Nat} (hk : 1 ≤ k)
    (l : List Interval) :
    covered t (l.flatMap (fun w => List.replicate k w)) ↔ covered t l := by
  constructor
  · rintro ⟨i, hi, h1, h2⟩
    rw [List.mem_flatMap] at hi
    obtain ⟨w, hw, hi'⟩ := hi
    rcases List.eq_of_mem_replicate hi' with rfl
    exact ⟨i, hw, h1, h2⟩
  · rintro ⟨i, hi, h1, h2⟩
    refine ⟨i, ?_, h1, h2⟩
    rw [List.mem_flatMap]
    refine ⟨i, hi, ?_⟩
    cases k with
    | zero => omega
    | succ k => rw [List.replicate_succ]; exact List.mem_cons_self _ _

theorem mem_flatMap_replicate {w : Interval} {k : Nat} {l : List Interval}
    (hw : w ∈ l.flatMap (fun v => List.replicate k v)) : w ∈ l := by
  rw [List.mem_flatMap] at hw
  obtain ⟨v, hv, hw'⟩ := hw
  rcases List.eq_of_mem_replicate hw' with rfl
  exact hv

/-- A strictly separated stream of valid intervals is sorted by
`(start, end)`. -/
theorem sortedLex_of_sep {l : List Interval}
    (hv : ∀ i ∈ l, i.valid) (hp : List.Pairwise (fun a b => a.stop < b.start) l) :
    SortedLex l := by
  refine List.Pairwise.imp_of_mem ?_ hp
  intro a b ha _ h
  have := hv a ha
  exact Or.inl (by unfold Interval.valid at this; omega)

/-- Replicating each window of a separated stream keeps the output sorted
(the only duplicates are equal intervals). -/
theorem sortedLex_flatMap_replicate {l : List Interval} (k : Nat)
    (hv : ∀ i ∈ l, i.valid) (hp : List.Pairwise (fun a b => a.stop < b.start) l) :
    SortedLex (l.flatMap (fun w => List.replicate k w)) := by
  induction l with
  | nil => exact List.Pairwise.nil
  | cons w ws ih =>
    rw [List.flatMap_cons]
    unfold SortedLex
    rw [List.pairwise_append]
    refine ⟨pairwise_replicate (ile_refl w) k, ?_, ?_⟩
    · exact ih (fun i hi => hv i (List.mem_cons_of_mem _ hi))
        (List.pairwise_cons.mp hp).2
    · intro x hx y hy
      rcases List.eq_of_mem_replicate hx with rfl
      have hy' := mem_flatMap_replicate hy
      have hsep := (List.pairwise_cons.mp hp).1 y hy'
      have hvx := hv x (List.mem_cons_self _ _)
      exact Or.inl (by unfold Interval.valid at hvx; omega)

theorem diffLoop_nil_subs : ∀ (evs : List Interval), diffLoop [] evs = evs := by
  intro evs
  induction evs with
  | nil => rfl
  | cons ev evs ih =>
    show (diffEvent ev []).1 ++ diffLoop (diffEvent ev []).2 evs = ev :: evs
    unfold diffEvent
    simp only [skipPhase]
    rw [ih]
    rfl

/-! ## Recurrence lemmas -/

theorem p_anti_chain {p : Nat → Prop} (anti : ∀ k, p (k + 1) → p k) :
    ∀ (d k : Nat), p (k + d) → p k := by
  intro d
  induction d with
  | zero => intro k hp; exact hp
  | succ d ih => intro k hp; exact ih k (anti _ hp)

/-- The fast-forward skip in the occurrence loop drops a prefix of the index
range: if skipping is downward closed, the kept indices are a final segment. -/
theorem filterMap_range_skip {α : Type} (f : Nat → α) (p : Nat → Prop)
    [DecidablePred p] (anti : ∀ k, p (k + 1) → p k) :
    ∀ n, ∃ k0, k0 ≤ n ∧
      (List.range n).filterMap (fun k => if p k then none else some (f k)) =
        (List.range' k0 (n - k0)).map f ∧
      (∀ k, k < n → (¬ p k ↔ k0 ≤ k)) := by
  intro n
  induction n with
  | zero =>
    exact ⟨0, le_refl _, rfl, fun k hk => absurd hk (Nat.not_lt_zero _)⟩
  | succ n ih =>
    obtain ⟨k0, hk0n, heq, hiff⟩ := ih
    by_cases hpn : p n
    · have hall : ∀ k, k < n + 1 → p k := by
        intro k hk
        have hkn : k + (n - k) = n := by omega
        exact p_anti_chain anti (n - k) k (by rw [hkn]; exact hpn)
      refine ⟨n + 1, le_refl _, ?_, ?_⟩
      · rw [List.range_succ, List.filterMap_append, heq]
        have h1 : n - k0 = 0 := by
          by_contra hne
          have hk0 : k0 < n := by omega
          exact (hiff k0 hk0).mpr (le_refl _) (hall k0 (by omega))
        rw [h1, Nat.sub_self]
        simp [hpn]
      · intro k hk
        exact ⟨fun hnp => absurd (hall k hk) hnp, fun hle => by omega⟩
    · refine ⟨k0, by omega, ?_, ?_⟩
      · rw [List.range_succ, List.filterMap_append, heq]
        simp only [List.filterMap_cons, if_neg hpn, List.filterMap_nil]
        rw [show n + 1 - k0 = (n - k0) + 1 by omega, List.range'_concat,
          show k0 + 1 * (n - k0) = n by omega, List.map_append]
        rfl
      · intro k hk
        rcases Nat.lt_succ_iff_lt_or_eq.mp hk with hk' | rfl
        · exact hiff k hk'
        · exact ⟨fun _ => hk0n, fun _ => hpn⟩

theorem chain'_map_range' {α : Type} (f : Nat → α) (R : α → α → Prop)
    (hR : ∀ m, R (f m) (f (m + 1))) :
    ∀ (c k : Nat), List.Chain' R ((List.range' k c).map f) := by
  intro c
  induction c with
  | zero => intro k; exact List.chain'_nil
  | succ c ih =>
    intro k
    rw [List.range'_succ, List.map_cons]
    cases c with
    | zero => exact List.chain'_singleton _
    | succ c' =>
      rw [List.range'_succ, List.map_cons]
      refine List.chain'_cons.mpr ⟨hR k, ?_⟩
      have h := ih (k + 1)
      rw [List.range'_succ, List.map_cons] at h
      exact h

/-- Consecutive occurrences emitted by the recurrence loop start exactly one
step apart. -/
theorem occStream_chain (anchor step dur ss s e : Int) (hstep : 0 < step) :
    List.Chain' (fun i j => j.start = i.start + step)
      (occStream anchor step dur ss s e) := by
  unfold occStream
  split
  · exact List.chain'_nil
  · obtain ⟨k0, _, heq, _⟩ := filterMap_range_skip
      (fun k => (⟨anchor + step * (k : Int) + ss,
        anchor + step * (k : Int) + ss + dur⟩ : Interval))
      (fun k => anchor + step * (k : Int) + ss + dur < s)
      (fun k hk => by
        push_cast at hk ⊢
        have hmul : step * ((k : Int) + 1) = step * k + step := by ring
        omega)
      (((e - ss - anchor) / step).toNat + 1)
    rw [heq]
    refine chain'_map_range' _ _ ?_ _ _
    intro m
    show anchor + step * ((m + 1 : Nat) : Int) + ss =
      anchor + step * (m : Int) + ss + step
    push_cast
    ring

/-- The occurrence loop emits exactly the anchor-grid occurrences that are
not skipped (end reaches `start`) and not past the stop bound. -/
theorem mem_occStream {anchor step dur ss s e : Int} (hstep : 0 < step)
    (I : Interval) :
    I ∈ occStream anchor step dur ss s e ↔
      ∃ k : Nat, I.start = anchor + step * (k : Int) + ss ∧
        I.stop = I.start + dur ∧ s ≤ I.stop ∧ I.start ≤ e := by
  unfold occStream
  split
  · rename_i hneg
    simp only [List.not_mem_nil, false_iff]
    rintro ⟨k, h1, h2, h3, h4⟩
    have hk0 : (0 : Int) ≤ step * (k : Int) := by positivity
    have hpos : (0 : Int) ≤ e - ss - anchor := by omega
    have := Int.ediv_nonneg hpos (le_of_lt hstep)
    omega
  · rename_i hneg
    rw [List.mem_filterMap]
    constructor
    · rintro ⟨k, hk, hsome⟩
      rw [List.mem_range] at hk
      split at hsome
      · cases hsome
      · rename_i hcond
        rw [Option.some.injEq] at hsome
        subst hsome
        refine ⟨k, rfl, rfl, ?_, ?_⟩
        · show s ≤ anchor + step * (k : Int) + ss + dur
          omega
        · show anchor + step * (k : Int) + ss ≤ e
          have hk' : (k : Int) ≤ (e - ss - anchor) / step := by
            rw [← Int.le_toNat (by omega)]
            omega
          have hle := (Int.le_ediv_iff_mul_le hstep).mp hk'
          have hcomm : (k : Int) * step = step * (k : Int) := by ring
          omega
    · rintro ⟨k, h1, h2, h3, h4⟩
      have hmul : step * (k : Int) ≤ e - ss - anchor := by omega
      have hk' : (k : Int) ≤ (e - ss - anchor) / step :=
        (Int.le_ediv_iff_mul_le hstep).mpr (by rw [mul_comm]; omega)
      refine ⟨k, ?_, ?_⟩
      · rw [List.mem_range]
        have := (Int.le_toNat (by omega : (0 : Int) ≤ (e - ss - anchor) / step)).mpr hk'
        omega
      · rw [if_neg (by omega)]
        rw [Option.some.injEq]
        cases I
        simp only at h1 h2
        subst h1
        rw [h2]

/-- `_get_safe_anchor` for daily patterns never lands after the lookback
start. -/
theorem dailyAnchor_le (interval lb : Int) (h : 0 < interval) :
    dailyAnchor interval lb ≤ lb := by
  unfold dailyAnchor
  have h1 : 0 ≤ lb / 86400 % interval := Int.emod_nonneg _ (by omega)
  omega

/-- The daily anchor is on the interval-day grid counted from the epoch. -/
theorem dailyAnchor_form (interval lb : Int) :
    ∃ m : Int, dailyAnchor interval lb = 86400 * interval * m := by
  unfold dailyAnchor
  refine ⟨lb / 86400 / interval, ?_⟩
  have h2 : interval * (lb / 86400 / interval) + lb / 86400 % interval = lb / 86400 :=
    Int.ediv_add_emod _ _
  have h3 : lb / 86400 - lb / 86400 % interval =
      interval * (lb / 86400 / interval) := by omega
  rw [h3]
  ring

/-- `_get_safe_anchor` for weekly patterns never lands after the lookback
start. -/
theorem weeklyAnchor_le (interval lb : Int) (h : 0 < interval) :
    weeklyAnchor interval lb ≤ lb := by
  unfold weeklyAnchor
  have h1 : 0 ≤ (lb / 86400 + 3) / 7 % interval := Int.emod_nonneg _ (by omega)
  omega

/-- The weekly anchor is on the interval-week grid counted from the Monday
on/before the epoch (1969-12-29, timestamp `-259200`). -/
theorem weeklyAnchor_form (interval lb : Int) :
    ∃ m : Int, weeklyAnchor interval lb = -259200 + 604800 * interval * m := by
  unfold weeklyAnchor
  refine ⟨(lb / 86400 + 3) / 7 / interval, ?_⟩
  have h2 : interval * ((lb / 86400 + 3) / 7 / interval) +
      (lb / 86400 + 3) / 7 % interval = (lb / 86400 + 3) / 7 :=
    Int.ediv_add_emod _ _
  have h3 : (lb / 86400 + 3) / 7 - (lb / 86400 + 3) / 7 % interval =
      interval * ((lb / 86400 + 3) / 7 / interval) := by omega
  rw [h3]
  ring

/-! ## Final glue lemmas -/

/-- Fragment containment needs only event validity, not disjointness. -/
theorem diffLoop_contained :
    ∀ (evs : List Interval) (subs : List Interval),
      (∀ ev ∈ evs, ev.valid) →
      ∀ f ∈ diffLoop subs evs,
        ∃ ev ∈ evs, ev.start ≤ f.start ∧ f.start ≤ f.stop ∧ f.stop ≤ ev.stop := by
  intro evs
  induction evs with
  | nil => intro subs _ f hf; cases hf
  | cons ev evs ih =>
    intro subs hv f hf
    rcases List.mem_append.mp hf with hf' | hf'
    · exact ⟨ev, List.mem_cons_self _ _,
        (diffEvent_frags ev (hv ev (List.mem_cons_self _ _)) subs).1 f hf'⟩
    · obtain ⟨ev2, hev2, hb⟩ := ih (diffEvent ev subs).2
        (fun x hx => hv x (List.mem_cons_of_mem _ hx)) f hf'
      exact ⟨ev2, List.mem_cons_of_mem _ hev2, hb⟩

/-- `isectInit` pairs each source stream with its head and tail. -/
theorem isectInit_spec :
    ∀ (streams : List (List Interval)) (st : List (Interval × List Interval)),
      isectInit streams = some st →
      List.Forall₂ (fun l p => l = p.1 :: p.2) streams st := by
  intro streams
  induction streams with
  | nil =>
    intro st h
    simp only [isectInit, Option.some.injEq] at h
    subst h
    exact List.Forall₂.nil
  | cons l ls ih =>
    intro st h
    simp only [isectInit] at h
    cases l with
    | nil => simp at h
    | cons x xs =>
      cases hrec : isectInit ls with
      | none => rw [hrec] at h; simp at h
      | some st0 =>
        rw [hrec] at h
        simp only [Option.some.injEq] at h
        subst h
        exact List.Forall₂.cons rfl (ih st0 hrec)

theorem covered_unionFetch_pair {t : Int} {X Y : List Interval} :
    covered t (unionFetch [X, Y]) ↔ covered t X ∨ covered t Y := by
  constructor
  · rintro ⟨i, hi, h1, h2⟩
    rcases mem_unionFetch.mp hi with ⟨l, hl, hil⟩
    rcases List.mem_cons.mp hl with rfl | hl'
    · exact Or.inl ⟨i, hil, h1, h2⟩
    · rcases List.mem_cons.mp hl' with rfl | hl''
      · exact Or.inr ⟨i, hil, h1, h2⟩
      · cases hl''
  · rintro (⟨i, hi, h1, h2⟩ | ⟨i, hi, h1, h2⟩)
    · exact ⟨i, mem_unionFetch.mpr ⟨X, List.mem_cons_self _ _, hi⟩, h1, h2⟩
    · exact ⟨i, mem_unionFetch.mpr
        ⟨Y, List.mem_cons_of_mem _ (List.mem_cons_self _ _), hi⟩, h1, h2⟩

theorem diffFetch_single (A B : List Interval) :
    diffFetch A [B] = diffLoop B A := by
  show diffLoop (merge2 B []) A = diffLoop B A
  rw [merge2_nil_right]

/-! ## Claim theorems -/

/-- C1: evaluating `Intersection.fetch` on the regression scenario — source X
yielding `[100,200]` then `[150,160]`, source Y yielding the single wide
interval `[0,200]` — produces only the single overlap `[100,200]`: after the
first overlap the advance loop also advances Y (its end ties the cutoff),
hits `StopIteration` and returns, so the second overlap `[150,160]` is never
emitted.  The claim (and the repository's own regression test
`test_intersection_handles_exhausted_iterators`) require two results. -/
theorem c1_tie_advance_eval :
    intersectionWindows [[⟨100, 200⟩, ⟨150, 160⟩], [⟨0, 200⟩]] = [⟨100, 200⟩] ∧
    (intersectionWindows [[⟨100, 200⟩, ⟨150, 160⟩], [⟨0, 200⟩]]).length = 1 := by
  exact ⟨by decide, by decide⟩

/-- C2 counterexample: two current intervals touching at the shared boundary
point 5 (`overlap_start = overlap_end = 5`) do emit the single-point interval
`[5,5]`, refuting the claim that nothing is emitted when
`overlap_start >= overlap_end`. -/
theorem c2_touch_counterexample :
    intersectionWindows [[⟨0, 5⟩], [⟨5, 10⟩]] = [⟨5, 5⟩] ∧
    intersectionWindows [[⟨0, 5⟩], [⟨5, 10⟩]] ≠ [] := by
  exact ⟨by decide, by decide⟩

/-- C2 (amended): a window is empty and nothing is emitted only when
`overlap_start > overlap_end` (strictly); when the currents merely touch
(`overlap_start = overlap_end`) a single-point interval is emitted, and every
emitted interval satisfies `start <= end` (the endpoints are inclusive in
this code base, not half-open). -/
theorem c2_empty_window_amended :
    (∀ (streams : List (List Interval)),
      ∀ w ∈ intersectionWindows streams, w.start ≤ w.stop) ∧
    intersectionWindows [[⟨0, 4⟩], [⟨5, 10⟩]] = [] ∧
    intersectionWindows [[⟨0, 5⟩], [⟨5, 10⟩]] = [⟨5, 5⟩] := by
  exact ⟨intersectionWindows_valid, by decide, by decide⟩

theorem c2_empty_window_amended_witness :
    (⟨5, 5⟩ : Interval).start ≤ (⟨5, 5⟩ : Interval).stop :=
  c2_empty_window_amended.1 [[⟨0, 5⟩], [⟨5, 10⟩]] ⟨5, 5⟩ (by decide)

/-- C3 counterexample: both input streams are ordered by `(start, end)` and
valid, yet `Difference.fetch` emits `[51,100]` before `[5,10]` — an
out-of-order output — because the source's own intervals overlap one
another. -/
theorem c3_ordering_counterexample :
    SortedLex [⟨0, 100⟩, ⟨5, 10⟩] ∧ SortedLex [⟨0, 50⟩] ∧
    (∀ i ∈ [(⟨0, 100⟩ : Interval), ⟨5, 10⟩], i.valid) ∧
    diffFetch [⟨0, 100⟩, ⟨5, 10⟩] [[⟨0, 50⟩]] = [⟨51, 100⟩, ⟨5, 10⟩] ∧
    ¬ SortedLex (diffFetch [⟨0, 100⟩, ⟨5, 10⟩] [[⟨0, 50⟩]]) := by
  refine ⟨by decide, by decide, by decide, by decide, by decide⟩

/-- C3 (amended): with every input stream ordered by `(start, end)`, the
outputs of Union, Filtered and Complement are ordered; Intersection and
Difference outputs are ordered provided additionally that each source
stream's own intervals are pairwise disjoint (each ends strictly before the
next begins) — with internally overlapping source intervals those two
combinators can emit out of order. -/
theorem c3_ordering_amended :
    (∀ (streams : List (List Interval)),
      (∀ l ∈ streams, SortedLex l) → SortedLex (unionFetch streams)) ∧
    (∀ (p : Interval → Bool) (l : List Interval),
      SortedLex l → SortedLex (filteredFetch p l)) ∧
    (∀ (s e : Int) (l : List Interval),
      (∀ i ∈ l, i.valid) → SortedLex (comp s e l)) ∧
    (∀ (k : Nat) (streams : List (List Interval)),
      (∀ l ∈ streams, (∀ i ∈ l, i.valid) ∧ Disjoint2 l) →
      SortedLex (intersectionFetch k streams)) ∧
    (∀ (src : List Interval) (subStreams : List (List Interval)),
      (∀ i ∈ src, i.valid) → Disjoint2 src →
      SortedLex (diffFetch src subStreams)) := by
  refine ⟨fun streams h => unionFetch_sorted h,
    fun p l h => filteredFetch_sorted h, ?_, ?_, ?_⟩
  · intro s e l hv
    obtain ⟨hb, hp⟩ := compAux_canon s e l s (le_refl s) hv
    refine sortedLex_of_sep (fun g hg => (hb g hg).2.1) ?_
    exact hp.imp (fun h => by omega)
  · intro k streams hstreams
    unfold intersectionFetch
    refine sortedLex_flatMap_replicate k (intersectionWindows_valid streams) ?_
    unfold intersectionWindows
    split
    · exact List.Pairwise.nil
    · split
      · exact List.Pairwise.nil
      · rename_i st heq
        have hspec := isectInit_spec _ st heq
        have hs : ∀ p ∈ st, SortedLex (p.1 :: p.2) := by
          intro p hp
          obtain ⟨l, hl, hlp⟩ := forall2_mem_right hspec p hp
          obtain ⟨hv, hd⟩ := hstreams l hl
          exact sortedLex_of_sep (hlp ▸ hv) (hlp ▸ hd)
        have hd : ∀ p ∈ st, Disjoint2 (p.1 :: p.2) := by
          intro p hp
          obtain ⟨l, hl, hlp⟩ := forall2_mem_right hspec p hp
          exact hlp ▸ (hstreams l hl).2
        exact (isectLoopFuel_ordered _ st hs hd).2
  · intro src subStreams hv hd
    cases subStreams with
    | nil => exact sortedLex_of_sep hv hd
    | cons l ls =>
      have hfacts := diffLoop_facts src (unionFetch (l :: ls)) hv hd
      refine sortedLex_of_sep ?_ hfacts.2
      intro f hf
      obtain ⟨ev, _, _, h2, _⟩ := hfacts.1 f hf
      exact h2

theorem c3_ordering_amended_witness :
    SortedLex (unionFetch [[⟨0, 5⟩], [⟨3, 12⟩]]) ∧
    SortedLex (intersectionFetch 2 [[⟨0, 5⟩, ⟨10, 15⟩], [⟨3, 12⟩]]) ∧
    SortedLex (diffFetch [⟨0, 5⟩, ⟨10, 15⟩] [[⟨3, 12⟩]]) :=
  ⟨c3_ordering_amended.1 [[⟨0, 5⟩], [⟨3, 12⟩]] (by decide),
   c3_ordering_amended.2.2.2.1 2 [[⟨0, 5⟩, ⟨10, 15⟩], [⟨3, 12⟩]] (by decide),
   c3_ordering_amended.2.2.2.2 [⟨0, 5⟩, ⟨10, 15⟩] [[⟨3, 12⟩]] (by decide) (by decide)⟩

/-- C4: `flatten` is `complement(complement(.))`, and flattening twice yields
exactly the same interval sequence as flattening once, for every source
stream of (valid) intervals and all finite bounds `s <= e`. -/
theorem c4_flatten_idempotent (s e : Int) (hse : s ≤ e) (l : List Interval)
    (hv : ∀ i ∈ l, i.valid) :
    flattenFetch s e (flattenFetch s e l) = flattenFetch s e l := by
  have h1 : Canon s e (comp s e l) := comp_canon hv
  have hv1 : ∀ i ∈ comp s e l, i.valid := fun i hi => (h1.1 i hi).2.1
  have h2 : Canon s e (comp s e (comp s e l)) := comp_canon hv1
  show comp s e (comp s e (comp s e (comp s e l))) = comp s e (comp s e l)
  exact comp_comp_of_canon hse h2

theorem c4_flatten_idempotent_witness :
    flattenFetch 0 20 (flattenFetch 0 20 [⟨0, 5⟩, ⟨3, 12⟩, ⟨15, 16⟩]) =
      flattenFetch 0 20 [⟨0, 5⟩, ⟨3, 12⟩, ⟨15, 16⟩] :=
  c4_flatten_idempotent 0 20 (by decide) _ (by decide)

/-- C5: for ordered streams of valid intervals, the seconds covered by
`((A - B) | (A & B)).fetch(s, e)` are exactly the seconds covered by
`A.fetch(s, e)` within the query window (`k` is the number of copies the
intersection emits per overlap, at least one under every emission policy). -/
theorem c5_difference_union_recombination
    (A B : List Interval) (k : Nat) (hk : 1 ≤ k)
    (hA : SortedLex A) (hB : SortedLex B)
    (hAv : ∀ i ∈ A, i.valid) (hBv : ∀ i ∈ B, i.valid)
    (s e t : Int) (_hse : s ≤ e) (_hst : s ≤ t) (_hte : t ≤ e) :
    covered t (unionFetch [diffFetch A [B], intersectionFetch k [A, B]]) ↔
      covered t A := by
  rw [covered_unionFetch_pair, diffFetch_single]
  unfold intersectionFetch
  rw [covered_flatMap_replicate hk]
  cases A with
  | nil =>
    constructor
    · rintro (⟨i, hi, _⟩ | ⟨i, hi, _⟩)
      · cases hi
      · cases hi
    · rintro ⟨i, hi, _⟩
      cases hi
  | cons a as =>
    cases B with
    | nil =>
      rw [diffLoop_nil_subs]
      constructor
      · rintro (hc | ⟨i, hi, _⟩)
        · exact hc
        · cases hi
      · exact fun hc => Or.inl hc
    | cons b bs =>
      constructor
      · rintro (hc | hc)
        · obtain ⟨f, hf, h1, h2⟩ := hc
          obtain ⟨ev, hev, he1, _, he3⟩ := diffLoop_contained (a :: as) (b :: bs) hAv f hf
          exact ⟨ev, hev, by omega, by omega⟩
        · obtain ⟨w, hw, h1, h2⟩ := hc
          rw [intersectionWindows_two] at hw
          obtain ⟨x, hx, hx1, hx2⟩ := isectLoopFuel_contained _ _ w hw (a, as)
            (List.mem_cons_self _ _)
          exact ⟨x, hx, by omega, by omega⟩
      · intro hc
        by_cases hcw : covered t (intersectionWindows [a :: as, b :: bs])
        · exact Or.inr hcw
        · refine Or.inl ?_
          have hcb : ¬ covered t (b :: bs) := by
            intro hcb
            apply hcw
            rw [intersectionWindows_two]
            exact isectLoopFuel_cover _ a b as bs t (by omega) hA hB hAv hBv hc hcb
          obtain ⟨ev, hev, h1, h2⟩ := hc
          rcases diffLoop_cover (a :: as) (b :: bs) ev t hev h1 h2 with hd | hd
          · exact hd
          · exact absurd hd hcb

theorem c5_difference_union_recombination_witness :
    covered 4 (unionFetch [diffFetch [⟨0, 10⟩] [[⟨3, 5⟩]],
      intersectionFetch 2 [[⟨0, 10⟩], [⟨3, 5⟩]]]) ↔ covered 4 [⟨0, 10⟩] :=
  c5_difference_union_recombination [⟨0, 10⟩] [⟨3, 5⟩] 2 (by decide)
    (by decide) (by decide) (by decide) (by decide) 0 10 4
    (by decide) (by decide) (by decide)

/-- C6: for a weekly pattern with `interval = 2` (UTC, start-of-day offset
`ss` with `0 ≤ ss < 86400`), consecutive emitted occurrences start exactly
1209600 seconds (14 days) apart, and the phase is anchored independently of
the query window: any occurrence emitted for one window is emitted
identically for any other window whose bounds it overlaps (`s2 ≤ end` and
`start ≤ e2`), never shifted by a cycle. -/
theorem c6_weekly_phase (dur ss : Int) (hss0 : 0 ≤ ss) (hss : ss < 86400) :
    (∀ s e : Int, List.Chain' (fun i j => j.start = i.start + 1209600)
      (weeklyFetch 2 dur ss s e)) ∧
    (∀ s1 e1 s2 e2 : Int, ∀ I ∈ weeklyFetch 2 dur ss s1 e1,
      s2 ≤ I.stop → I.start ≤ e2 → I ∈ weeklyFetch 2 dur ss s2 e2) := by
  constructor
  · intro s e
    exact occStream_chain _ (604800 * 2) dur ss s e (by norm_num)
  · intro s1 e1 s2 e2 I hI h2 h3
    unfold weeklyFetch at hI ⊢
    rw [mem_occStream (by norm_num : (0:Int) < 604800 * 2)] at hI ⊢
    obtain ⟨k, ha, hb, _, _⟩ := hI
    obtain ⟨m1, hm1⟩ := weeklyAnchor_form 2 (s1 - (dur + 2 * 604800))
    obtain ⟨m2, hm2⟩ := weeklyAnchor_form 2 (s2 - (dur + 2 * 604800))
    have hle2 := weeklyAnchor_le 2 (s2 - (dur + 2 * 604800)) (by norm_num)
    set d : Int := m1 + (k : Int) - m2 with hdm
    have hstart : I.start =
        weeklyAnchor 2 (s2 - (dur + 2 * 604800)) + 604800 * 2 * d + ss := by
      rw [hm2, ha, hm1, hdm]; ring
    have hdpos : 0 < d := by omega
    refine ⟨d.toNat, ?_, hb, h2, h3⟩
    rw [Int.toNat_of_nonneg (le_of_lt hdpos)]
    exact hstart

theorem c6_weekly_phase_witness :
    List.Chain' (fun i j => j.start = i.start + 1209600)
      (weeklyFetch 2 86400 0 0 2419200) ∧
    (⟨950400, 1036800⟩ : Interval) ∈ weeklyFetch 2 86400 0 799200 2419200 :=
  ⟨(c6_weekly_phase 86400 0 (by decide) (by decide)).1 0 2419200,
   (c6_weekly_phase 86400 0 (by decide) (by decide)).2 0 2419200 799200 2419200
     ⟨950400, 1036800⟩ (by decide) (by decide) (by decide)⟩

/-- C7: `RecurringPattern.fetch` lookback, for a daily pattern with any
`interval ≥ 1` and start-of-day offset `0 ≤ ss < 86400`: every grid
occurrence that overlaps the window — even one starting before `start` —
is emitted (the lookback `duration + interval` days reaches far enough
back); every emitted occurrence has `end ≥ start` (occurrences wholly
before the window are skipped, not emitted) and `start ≤ end`-bound
(iteration stops once a generated start exceeds `end`). -/
theorem c7_daily_lookback (interval dur ss : Int) (hint : 1 ≤ interval)
    (hss0 : 0 ≤ ss) (hss : ss < 86400) :
    (∀ s e m : Int, s ≤ 86400 * interval * m + ss + dur →
      86400 * interval * m + ss ≤ e →
      (⟨86400 * interval * m + ss, 86400 * interval * m + ss + dur⟩ : Interval) ∈
        dailyFetch interval dur ss s e) ∧
    (∀ s e : Int, ∀ I ∈ dailyFetch interval dur ss s e, s ≤ I.stop) ∧
    (∀ s e : Int, ∀ I ∈ dailyFetch interval dur ss s e, I.start ≤ e) := by
  have hstep : (0 : Int) < 86400 * interval := by positivity
  refine ⟨?_, ?_, ?_⟩
  · intro s e m hov hle
    unfold dailyFetch
    rw [mem_occStream hstep]
    obtain ⟨q, hq⟩ := dailyAnchor_form interval (s - (dur + interval * 86400))
    have hanchor := dailyAnchor_le interval (s - (dur + interval * 86400)) (by omega)
    have hcomm : interval * 86400 = 86400 * interval := by ring
    have hdpos : 0 < m - q := by
      have hbr : 86400 * interval * (m - q) =
          86400 * interval * m - 86400 * interval * q := by ring
      have h86 : 86400 * 1 ≤ 86400 * interval :=
        mul_le_mul_of_nonneg_left hint (by norm_num)
      by_contra hc
      push_neg at hc
      have hnp : 86400 * interval * (m - q) ≤ 0 :=
        mul_nonpos_iff.mpr (Or.inl ⟨le_of_lt hstep, hc⟩)
      omega
    refine ⟨(m - q).toNat, ?_, rfl, hov, hle⟩
    show 86400 * interval * m + ss =
      dailyAnchor interval (s - (dur + interval * 86400)) +
        86400 * interval * (((m - q).toNat : Nat) : Int) + ss
    rw [Int.toNat_of_nonneg (le_of_lt hdpos), hq]
    ring
  · intro s e I hI
    unfold dailyFetch at hI
    rw [mem_occStream hstep] at hI
    obtain ⟨k, _, _, h3, _⟩ := hI
    exact h3
  · intro s e I hI
    unfold dailyFetch at hI
    rw [mem_occStream hstep] at hI
    obtain ⟨k, _, _, _, h4⟩ := hI
    exact h4

theorem c7_daily_lookback_witness :
    (⟨518400, 950400⟩ : Interval) ∈ dailyFetch 1 432000 0 864000 1296000 := by
  have h := (c7_daily_lookback 1 432000 0 (by decide) (by decide) (by decide)).1
    864000 1296000 6 (by decide) (by decide)
  exact h

/-- C8: operations that structurally require finite bounds fail with the
bounds error when the required side is `None` — `Complement.fetch` on a
missing `start` or `end`, and `RecurringPattern.fetch` on a missing
`start` — and no interval is emitted in those cases (the result is an
error, not a list); with both bounds present Complement succeeds. -/
theorem c8_bounds_errors :
    (∀ (e? : Option Int) (l : List Interval),
      complementFetch none e? l = .error (.valueError complementBoundsMsg)) ∧
    (∀ (s : Int) (l : List Interval),
      complementFetch (some s) none l = .error (.valueError complementBoundsMsg)) ∧
    (∀ (interval dur ss e : Int),
      recurringFetchDaily interval dur ss none e =
        .error (.valueError recurringBoundsMsg)) ∧
    (∀ (s e : Int) (l : List Interval),
      complementFetch (some s) (some e) l = .ok (comp s e l)) := by
  refine ⟨?_, ?_, ?_, ?_⟩
  · intro e? l; cases e? <;> rfl
  · intro s l; rfl
  · intro interval dur ss e; rfl
  · intro s e l; rfl

/-- C9: constructing an `Interval` with `start > end` raises `ValueError` at
construction time, equal endpoints are permitted, and every interval emitted
by each combinator (Union, Intersection, Difference, Complement, Filtered)
satisfies `start ≤ end` whenever the source intervals do. -/
theorem c9_interval_wellformedness :
    (∀ a b : Int, a > b → mkInterval a b = .error (.valueError intervalOrderMsg)) ∧
    (∀ a b : Int, a ≤ b → mkInterval a b = .ok ⟨a, b⟩) ∧
    (∀ t : Int, mkInterval t t = .ok ⟨t, t⟩) ∧
    (∀ (streams : List (List Interval)), (∀ l ∈ streams, ∀ i ∈ l, i.valid) →
      ∀ i ∈ unionFetch streams, i.valid) ∧
    (∀ (k : Nat) (streams : List (List Interval)),
      ∀ w ∈ intersectionFetch k streams, w.valid) ∧
    (∀ (src : List Interval) (subStreams : List (List Interval)),
      (∀ i ∈ src, i.valid) → ∀ f ∈ diffFetch src subStreams, f.valid) ∧
    (∀ (s e : Int) (l : List Interval), ∀ g ∈ comp s e l, g.valid) ∧
    (∀ (p : Interval → Bool) (l : List Interval), (∀ i ∈ l, i.valid) →
      ∀ i ∈ filteredFetch p l, i.valid) := by
  refine ⟨?_, ?_, ?_, ?_, ?_, ?_, ?_, ?_⟩
  · intro a b h; unfold mkInterval; rw [if_pos h]
  · intro a b h; unfold mkInterval; rw [if_neg (by omega)]
  · intro t; unfold mkInterval; rw [if_neg (by omega)]
  · intro streams hv i hi
    obtain ⟨l, hl, hil⟩ := mem_unionFetch.mp hi
    exact hv l hl i hil
  · intro k streams w hw
    exact intersectionWindows_valid streams w (mem_flatMap_replicate hw)
  · intro src subStreams hv f hf
    cases subStreams with
    | nil => exact hv f hf
    | cons l ls =>
      obtain ⟨ev, _, _, h2, _⟩ :=
        diffLoop_contained src (unionFetch (l :: ls)) hv f hf
      exact h2
  · intro s e l g hg
    exact compAux_valid s e l s g hg
  · intro p l hv i hi
    exact hv i (mem_filteredFetch_subset hi)

theorem c9_interval_wellformedness_witness :
    mkInterval 5 3 = .error (.valueError intervalOrderMsg) ∧
    mkInterval 2 2 = .ok ⟨2, 2⟩ ∧
    (⟨3, 5⟩ : Interval).valid :=
  ⟨c9_interval_wellformedness.1 5 3 (by decide),
   c9_interval_wellformedness.2.2.1 2,
   c9_interval_wellformedness.2.2.2.2.2.2.2 (fun i => true) [⟨3, 5⟩]
     (by decide) ⟨3, 5⟩ (by decide)⟩

/-- C10: duration is inclusive throughout the measurement surface:
`total_duration` sums `end - start + 1` over the flattened stream (so on an
already-canonical stream it is exactly the sum of the inclusive lengths),
a single-point interval contributes duration 1, and `Duration.apply`
divides the inclusive length `end - start + 1` by the unit scale. -/
theorem c10_inclusive_duration :
    (∀ (l : List Interval) (s e : Int), s ≤ e → Canon s e l →
      totalDuration l s e = (l.map (fun i => i.stop - i.start + 1)).sum) ∧
    (∀ (t s e : Int), s ≤ t → t ≤ e → totalDuration [⟨t, t⟩] s e = 1) ∧
    (∀ (a b scale : Int), (scale : ℚ) ≠ 0 →
      durationApply scale ⟨a, b⟩ * (scale : ℚ) = ((b - a + 1 : Int) : ℚ)) := by
  have key : ∀ (l : List Interval) (s e : Int), s ≤ e → Canon s e l →
      totalDuration l s e = (l.map (fun i => i.stop - i.start + 1)).sum := by
    intro l s e hse hc
    unfold totalDuration
    rw [if_neg (by omega)]
    show ((comp s e (comp s e l)).map (fun i => i.stop - i.start + 1)).sum = _
    rw [comp_comp_of_canon hse hc]
  refine ⟨key, ?_, ?_⟩
  · intro t s e h1 h2
    have h := key [⟨t, t⟩] s e (by omega)
      ⟨by
        intro i hi
        rcases List.mem_singleton.mp hi with rfl
        exact ⟨h1, le_refl t, h2⟩,
       List.pairwise_singleton _ _⟩
    rw [h]; simp
  · intro a b scale hs
    unfold durationApply
    exact div_mul_cancel₀ _ hs

theorem c10_inclusive_duration_witness :
    totalDuration [⟨5, 5⟩] 0 10 = 1 ∧
    totalDuration [⟨2, 4⟩, ⟨8, 9⟩] 0 10 = 5 :=
  ⟨c10_inclusive_duration.2.1 5 0 10 (by decide) (by decide),
   by
    have h := c10_inclusive_duration.1 [⟨2, 4⟩, ⟨8, 9⟩] 0 10 (by decide)
      (by constructor
          · decide
          · decide)
    rw [h]; decide⟩

end Calgebra
